import Mathlib

/-!
Verification of the row-oriented text-buffer engine of `termineditor.c`
(a terminal markdown editor).

The C source is shallowly embedded: each `EditorRow` owns a character
buffer (`chars`, modelled as `buf : List Char` whose length is the row's
`capacity`), a logical `size`, and a derived rendered form (`render`,
`rsize`).  Machine `int` positions are modelled as `Int` where the source
checks for negative values, and buffer bytes as `Char`.  `realloc`
extends the buffer, preserving the prefix; the fresh (indeterminate)
bytes are modelled as NUL, which no theorem depends on.  Allocation
success/failure is an explicit `allocOk : Bool` oracle wherever the
source checks the result of `realloc`.
-/

namespace Termineditor

/-- `#define TAB_SIZE 4` -/
def TAB_SIZE : Nat := 4

/-- `#define MAX_LINE_LENGTH 1000` -/
def MAX_LINE_LENGTH : Nat := 1000

/-- The NUL terminator byte `'\0'`. -/
def nulChar : Char := Char.ofNat 0

/-- One text row: `chars`/`capacity` are modelled as `buf` (the full
allocation, `buf.length = capacity`) plus the two tracked integers, and
`render`/`rsize` hold the tab-expanded form produced by
`editorUpdateRow`. -/
structure EditorRow where
  buf : List Char
  size : Nat
  capacity : Nat
  render : List Char
  rsize : Nat
deriving Repr, DecidableEq

/-- The logical content of a row: `chars[0 .. size)`. -/
def rowContent (r : EditorRow) : List Char := r.buf.take r.size

/-- Number of spaces a tab starting at render position `idx` expands to:
`render[idx++] = ' '; while (idx % TAB_SIZE != 0) render[idx++] = ' ';`
emits one space and then pads until the position is a multiple of
`TAB_SIZE`, i.e. `TAB_SIZE - idx % TAB_SIZE` spaces in total. -/
def tabSpaces (idx : Nat) : Nat := TAB_SIZE - idx % TAB_SIZE

/-- The render loop of `editorUpdateRow`: walk the characters keeping the
current output index `idx`; a tab emits `tabSpaces idx` spaces, any other
character is copied. -/
def renderChars : List Char → Nat → List Char
  | [], _ => []
  | c :: rest, idx =>
    if c = '\t' then
      List.replicate (tabSpaces idx) ' ' ++ renderChars rest (idx + tabSpaces idx)
    else
      c :: renderChars rest (idx + 1)

/-- `editorUpdateRow`: re-derive `render`/`rsize` from the row content.
(The source also counts tabs to size the `malloc` of the render buffer at
`size + tabs*(TAB_SIZE-1) + 1`; that allocation bound is proved below as
`renderChars_length_le`.) -/
def editorUpdateRow (r : EditorRow) : EditorRow :=
  let rend := renderChars (rowContent r) 0
  { r with render := rend, rsize := rend.length }

/-- Row construction shared by `editorAppendRow` and `editorInsertRow`:
`malloc(len + 1)`, copy the bytes, NUL-terminate, set
`capacity = len + 1` and derive the render. -/
def mkRow (s : List Char) : EditorRow :=
  editorUpdateRow
    { buf := s ++ [nulChar], size := s.length, capacity := s.length + 1,
      render := [], rsize := 0 }

/-- C `memmove(&l[dst], &l[src], n)` inside one buffer: the `n` bytes at
`src` are copied (as if through a temporary) to `dst`; the buffer length
is preserved whenever `src + n` and `dst + n` are in bounds. -/
def memmove (l : List Char) (dst src n : Nat) : List Char :=
  l.take dst ++ (l.drop src).take n ++ l.drop (dst + n)

/-- C `memcpy(&l[dst], s, s.length)` from an external source `s`. -/
def memcpyIn (l : List Char) (dst : Nat) (s : List Char) : List Char :=
  l.take dst ++ s ++ l.drop (dst + s.length)

/-- Outcome of a row mutation in the presence of the allocation oracle:
the operation completed, returned early leaving the given state, or
terminated the whole process (`die`). -/
inductive RowMutResult where
  | completed (r : EditorRow)
  | earlyReturn (r : EditorRow)
  | fatal
deriving Repr, DecidableEq

/-- The capacity `editorRowInsertChar` leaves the row with:
`if (row->size + 2 > row->capacity) { new_capacity = capacity * 2; if (new_capacity == 0) new_capacity = 4; }`
(unchanged when no growth is needed). -/
def insertCharGrownCap (r : EditorRow) : Nat :=
  if r.size + 2 > r.capacity then
    (if r.capacity * 2 = 0 then 4 else r.capacity * 2)
  else r.capacity

/-- The mutation `editorRowInsertChar` performs once any needed
reallocation succeeded, at the already-clamped index `a`:
`memmove(&chars[at+1], &chars[at], size - at + 1)`, `size++`,
`chars[at] = c`, re-derive the render. -/
def insertCharCore (r : EditorRow) (a : Nat) (c : Char) : EditorRow :=
  let newCap := insertCharGrownCap r
  let buf1 := r.buf ++ List.replicate (newCap - r.capacity) nulChar
  editorUpdateRow
    { buf := (memmove buf1 (a + 1) a (r.size - a + 1)).set a c,
      size := r.size + 1, capacity := newCap,
      render := r.render, rsize := r.rsize }

/-- `editorRowInsertChar(row, at, c)`:
clamp `at` into `[0, size]` (`if (at < 0 || at > row->size) at = row->size;`);
when growth is needed and `realloc` fails, return with the row unchanged
(the source comments "Handle allocation failure gracefully"); otherwise
perform the insertion.  (`E.dirty = 1` is applied by the caller model.) -/
def editorRowInsertCharM (row : EditorRow) (ati : Int) (c : Char)
    (allocOk : Bool) : RowMutResult :=
  if row.size + 2 > row.capacity ∧ allocOk = false then
    .earlyReturn row
  else
    .completed
      (insertCharCore row
        (if ati < 0 ∨ ati > (row.size : Int) then row.size else ati.toNat) c)

/-- `editorRowInsertChar` on the allocation-success path. -/
def editorRowInsertChar (row : EditorRow) (ati : Int) (c : Char) : EditorRow :=
  match editorRowInsertCharM row ati c true with
  | .completed r => r
  | .earlyReturn r => r
  | .fatal => row

/-- The capacity-growth loop of `editorRowAppendString`:
`while (cap < target) cap *= 2`, written with explicit fuel (the source
loop terminates because `capacity ≥ 1` always holds; `growCap` supplies
`target` rounds of fuel, which `growCapFuel_ge` shows is enough). -/
def growCapFuel : Nat → Nat → Nat → Nat
  | 0, cap, _ => cap
  | fuel + 1, cap, target => if cap < target then growCapFuel fuel (cap * 2) target else cap

/-- Capacity after the doubling loop of `editorRowAppendString`. -/
def growCap (cap target : Nat) : Nat := growCapFuel target cap target

/-- The capacity `editorRowAppendString` leaves the row with:
`while (row->capacity < new_size + 1) row->capacity *= 2;` when
`new_size >= capacity`, unchanged otherwise. -/
def appendStringGrownCap (r : EditorRow) (newSize : Nat) : Nat :=
  if newSize ≥ r.capacity then growCap r.capacity (newSize + 1) else r.capacity

/-- The mutation `editorRowAppendString` performs once any needed
reallocation succeeded: `memcpy(&chars[size], s, len)`,
`size = new_size`, `chars[size] = '\0'`, re-derive the render. -/
def appendStringCore (r : EditorRow) (s : List Char) : EditorRow :=
  let newSize := r.size + s.length
  let newCap := appendStringGrownCap r newSize
  let buf1 := r.buf ++ List.replicate (newCap - r.capacity) nulChar
  editorUpdateRow
    { buf := (memcpyIn buf1 r.size s).set newSize nulChar,
      size := newSize, capacity := newCap,
      render := r.render, rsize := r.rsize }

/-- `editorRowAppendString(row, s, len)`:
`new_size = size + len`; when `new_size >= capacity` the buffer is
reallocated after doubling, and a failed `realloc` calls
`die("realloc in editorRowAppendString")`; otherwise the append is
performed. -/
def editorRowAppendStringM (row : EditorRow) (s : List Char)
    (allocOk : Bool) : RowMutResult :=
  if row.size + s.length ≥ row.capacity ∧ allocOk = false then
    .fatal
  else
    .completed (appendStringCore row s)

/-- `editorRowAppendString` on the allocation-success path. -/
def editorRowAppendString (row : EditorRow) (s : List Char) : EditorRow :=
  match editorRowAppendStringM row s true with
  | .completed r => r
  | .earlyReturn r => r
  | .fatal => row

/-- `editorRowDelChar(row, at)`: no-op outside `[0, size)`; otherwise
`memmove(&chars[at], &chars[at+1], size - at)`, `size--`, re-render. -/
def editorRowDelChar (row : EditorRow) (ati : Int) : EditorRow :=
  if ati < 0 ∨ ati ≥ (row.size : Int) then row
  else
    editorUpdateRow
      { row with buf := memmove row.buf ati.toNat (ati.toNat + 1) (row.size - ati.toNat),
                 size := row.size - 1 }

/-- `editorRowCxToRx(row, cx)` walks `chars[0 .. cx)` keeping `rx`; a tab
does `rx += (TAB_SIZE - 1) - (rx % TAB_SIZE)` and every character adds
one more. -/
def cxToRxList (rx : Nat) : List Char → Nat
  | [] => rx
  | c :: rest =>
    cxToRxList (if c = '\t' then rx + (TAB_SIZE - 1 - rx % TAB_SIZE) + 1 else rx + 1) rest

/-- `editorRowCxToRx(row, cx)` reads `chars[0 .. cx)`, i.e. the first
`cx` bytes of the buffer. -/
def editorRowCxToRx (row : EditorRow) (cx : Nat) : Nat :=
  cxToRxList 0 (row.buf.take cx)

/-- The global editor state `E`, restricted to the fields the text-buffer
engine mutates: cursor, rows, dirty flag and the status message.  The
source keeps a separate `numrows`; here it is always `rows.length`
(the source updates both together on every insertion/deletion).
`cx`/`cy` are C `int`s that the engine keeps non-negative; they are
modelled as `Nat`. -/
structure EditorConfig where
  cx : Nat
  cy : Nat
  rows : List EditorRow
  dirty : Bool
  statusmsg : String
deriving Repr, DecidableEq

/-- `E.numrows`. -/
def numrows (st : EditorConfig) : Nat := st.rows.length

/-- A default row for modelling C pointer accesses `&E.rows[i]`; the
proofs keep the index in bounds, so the default is never read. -/
def defaultRow : EditorRow := mkRow []

/-- `editorAppendRow(s, len)`: grow the row array by one, build the new
row at index `numrows` and mark the file dirty. -/
def editorAppendRow (st : EditorConfig) (s : List Char) : EditorConfig :=
  { st with rows := st.rows ++ [mkRow s], dirty := true }

/-- `editorInsertRow(at, s, len)`: `if (at < 0 || at > E.numrows) return;`
otherwise shift the rows from `at` down by one, build the new row at `at`
and mark dirty. -/
def editorInsertRow (st : EditorConfig) (ati : Int) (s : List Char) : EditorConfig :=
  if ati < 0 ∨ ati > (numrows st : Int) then st
  else
    { st with
        rows := st.rows.take ati.toNat ++ [mkRow s] ++ st.rows.drop ati.toNat,
        dirty := true }

/-- `editorDelRow(at)`: no-op out of range, otherwise free row `at`,
shift the following rows up and mark dirty. -/
def editorDelRow (st : EditorConfig) (ati : Int) : EditorConfig :=
  if ati < 0 ∨ ati ≥ (numrows st : Int) then st
  else { st with rows := st.rows.eraseIdx ati.toNat, dirty := true }

/-- `editorInsertChar(c)`: append an empty row when the cursor sits on
the virtual row past the end, insert into the cursor row, advance `cx`.
(`editorRowInsertChar` sets `E.dirty = 1`; that global effect is applied
here.) -/
def editorInsertChar (st : EditorConfig) (c : Char) : EditorConfig :=
  let st1 := if st.cy = numrows st then editorAppendRow st [] else st
  let row := st1.rows.getD st1.cy defaultRow
  { st1 with
      rows := st1.rows.set st1.cy (editorRowInsertChar row (st1.cx : Int) c),
      dirty := true,
      cx := st1.cx + 1 }

/-- The row shrink at the end of `editorInsertNewline`'s split branch:
`row->size = E.cx; row->chars[row->size] = '\0'; editorUpdateRow(row);`. -/
def shrinkRow (r : EditorRow) (newSize : Nat) : EditorRow :=
  editorUpdateRow { r with buf := r.buf.set newSize nulChar, size := newSize }

/-- `editorInsertNewline()`: at column 0 insert an empty row at `cy`;
otherwise insert a row at `cy + 1` holding `chars[cx .. size)` and shrink
the current row to its first `cx` bytes; finally `cy++`, `cx = 0`. -/
def editorInsertNewline (st : EditorConfig) : EditorConfig :=
  let st1 :=
    if st.cx = 0 then
      editorInsertRow st (st.cy : Int) []
    else
      let row := st.rows.getD st.cy defaultRow
      let st2 := editorInsertRow st ((st.cy : Int) + 1) ((rowContent row).drop st.cx)
      let row2 := st2.rows.getD st.cy defaultRow
      { st2 with rows := st2.rows.set st.cy (shrinkRow row2 st.cx) }
  { st1 with cy := st.cy + 1, cx := 0 }

/-- `editorDelChar()`: no-op on the virtual row past the end and at the
very start of the buffer; with `cx > 0` delete the byte left of the
cursor; at column 0 set `cx` to the previous row's size, append the
current row's content to the previous row, delete the current row and
move up.  (The row operations set `E.dirty = 1`, applied here.) -/
def editorDelChar (st : EditorConfig) : EditorConfig :=
  if st.cy = numrows st then st
  else if st.cx = 0 ∧ st.cy = 0 then st
  else
    let row := st.rows.getD st.cy defaultRow
    if st.cx > 0 then
      { st with
          rows := st.rows.set st.cy (editorRowDelChar row ((st.cx : Int) - 1)),
          dirty := true,
          cx := st.cx - 1 }
    else
      let prev := st.rows.getD (st.cy - 1) defaultRow
      let st1 :=
        { st with
            cx := prev.size,
            rows := st.rows.set (st.cy - 1) (editorRowAppendString prev (rowContent row)),
            dirty := true }
      let st2 := editorDelRow st1 (st.cy : Int)
      { st2 with cy := st.cy - 1 }

/-- `editorRowsToString()`: every row's raw characters followed by a
single newline byte. -/
def editorRowsToString (st : EditorConfig) : List Char :=
  (st.rows.map (fun r => rowContent r ++ ['\n'])).flatten

/-- The `CTRL_KEY('f')` arm of `editorProcessKeypress` (edit and split
modes): the source only sets a status message — no search is performed
and no other editor state changes. -/
def editorProcessCtrlF (st : EditorConfig) : EditorConfig :=
  { st with statusmsg := "Search function not implemented yet" }

/-- `strlen(linebuf)`: length up to the first NUL byte. -/
def strlenList (l : List Char) : Nat :=
  (l.takeWhile (fun c => c != nulChar)).length

/-- The bytes one `fgets(linebuf, MAX_LINE_LENGTH, fp)` call places in
the buffer: at most `MAX_LINE_LENGTH - 1` bytes, stopping after the
first newline (or at end of stream). -/
def fgetsTake (s : List Char) : List Char :=
  let pre := s.takeWhile (fun c => c != '\n')
  if pre.length ≥ MAX_LINE_LENGTH - 1 then s.take (MAX_LINE_LENGTH - 1)
  else pre ++ (s.drop pre.length).take 1

/-- `while ((c = fgetc(fp)) != EOF && c != '\n');` — discard the rest of
the current physical line, including its newline. -/
def dropRestOfLine (s : List Char) : List Char :=
  s.drop ((s.takeWhile (fun c => c != '\n')).length + 1)

/-- The trailing-line-ending strip of `editorOpen`:
`while (linelen > 0 && (linebuf[linelen-1]=='\n' || linebuf[linelen-1]=='\r')) linelen--;`. -/
def stripTrailingNl (l : List Char) : List Char :=
  (l.reverse.dropWhile (fun c => c == '\n' || c == '\r')).reverse

/-- The `fgets` loop of `editorOpen`, as the list of row contents it
appends (via `editorAppendRow`).  Each iteration reads one buffer-full,
takes its `strlen`, discards the remainder of an over-long physical line
(surfacing a warning), strips trailing line endings and appends the row.
The structural `fuel` makes the recursion computable; every iteration
consumes at least one byte of the stream, so `stream.length + 1` rounds
(supplied by `editorOpenRows`) always suffice. -/
def editorOpenGo : Nat → List Char → List (List Char)
  | 0, _ => []
  | fuel + 1, stream =>
    if stream = [] then []
    else
      let line := fgetsTake stream
      let rest := stream.drop line.length
      let linelen := strlenList line
      let rest' :=
        if linelen = MAX_LINE_LENGTH - 1 ∧ line.getD (MAX_LINE_LENGTH - 2) nulChar ≠ '\n' then
          dropRestOfLine rest
        else rest
      stripTrailingNl (line.take linelen) :: editorOpenGo fuel rest'

/-- Row contents loaded by `editorOpen` from a byte stream. -/
def editorOpenRows (stream : List Char) : List (List Char) :=
  editorOpenGo (stream.length + 1) stream

/-- The serialized stream with every `\n` line ending replaced by
`\r\n` (the DOS line-ending variant of a saved file). -/
def crlfOf (s : List Char) : List Char :=
  s.flatMap (fun c => if c = '\n' then ['\r', '\n'] else [c])

/-! ## Markdown classification and rendering

The classification helpers read `row->chars` as a NUL-terminated C
string; reading at or past the end of the content yields the NUL byte
(the editor never stores NUL inside a row).  The render buffer is
modelled as the sequence of bytes written (`out`) together with the
source's write index `pos`; `snprintf` writes at most `size - 1` bytes
but its return value — added to `pos` — is the untruncated length.  For
the buffer the program actually passes (`3 * MAX_LINE_LENGTH`) no
truncation occurs and the model is exact. -/

/-- The backtick byte (0x60). -/
def backquote : Char := '\x60'

/-- `isHeaderLine`: the number of leading `#` marks when they are
followed by a space or tab, else `0`. -/
def isHeaderLine (l : List Char) : Nat :=
  let k := (l.takeWhile (fun c => c == '#')).length
  if k > 0 ∧ (l.getD k nulChar = ' ' ∨ l.getD k nulChar = '\t') then k else 0

/-- `isListItem`: after leading blanks, one of `-`/`*`/`+` followed by a
space or tab. -/
def isListItem (l : List Char) : Bool :=
  let l1 := l.dropWhile (fun c => c == ' ' || c == '\t')
  let b := l1.getD 0 nulChar
  if b = '-' ∨ b = '*' ∨ b = '+' then
    let b2 := l1.getD 1 nulChar
    b2 = ' ' || b2 = '\t'
  else false

/-- `isCodeBlock`: `strncmp(line, "markdown-fence", 3) == 0` — the line
starts with three backticks. -/
def isCodeBlock (l : List Char) : Bool :=
  l.take 3 = [backquote, backquote, backquote]

/-- The counting loop of `isHorizontalRule`: scan while the byte is the
chosen symbol or a blank, counting symbols; the rule requires at least
three symbols and that the scan ran to the end of the line. -/
def isHorizontalRuleGo (c : Char) : List Char → Nat → Bool
  | [], count => count ≥ 3
  | x :: rest, count =>
    if x = c then isHorizontalRuleGo c rest (count + 1)
    else if x = ' ' ∨ x = '\t' then isHorizontalRuleGo c rest count
    else false

/-- `isHorizontalRule`: after leading blanks, a line of at least three
repeated `-`/`*`/`_` possibly interspersed with blanks and nothing
else. -/
def isHorizontalRule (l : List Char) : Bool :=
  let l1 := l.dropWhile (fun c => c == ' ' || c == '\t')
  let c := l1.getD 0 nulChar
  if c = '-' ∨ c = '*' ∨ c = '_' then isHorizontalRuleGo c l1 0 else false

/-- `pos += snprintf(&buffer[pos], buffer_size - pos, s)`: the written
bytes (at most `buffer_size - pos - 1`) and the updated `pos` (grown by
the full length of `s`).  A call with `pos ≥ buffer_size` writes out of
bounds in C (undefined); it is modelled as writing nothing. -/
def snprintfApp (out : List Char) (pos bufsize : Nat) (s : List Char) :
    List Char × Nat :=
  (out ++ (if pos < bufsize then s.take (bufsize - pos - 1) else []), pos + s.length)

/-- `ESC "[1m"` — bold on. -/
def escBoldOn : List Char := ['\x1b', '[', '1', 'm']

/-- `ESC "[0m"` — reset all formatting. -/
def escReset : List Char := ['\x1b', '[', '0', 'm']

/-- `ESC "[3m"` — italic on. -/
def escItalicOn : List Char := ['\x1b', '[', '3', 'm']

/-- `ESC "[36m"` — cyan (inline code). -/
def escCyan : List Char := ['\x1b', '[', '3', '6', 'm']

/-- `ESC "[%d;1m"` for the header font size `7 - level`. -/
def escHeader (level : Nat) : List Char :=
  ['\x1b', '['] ++ [Char.ofNat (48 + (7 - level))] ++ [';', '1', 'm']

/-- The pad count of the tab-expansion
`buffer[pos++] = ' '; while ((pos % TAB_SIZE) != 0 && pos < buffer_size - 1) buffer[pos++] = ' ';`
after the first space: spaces until the position is a multiple of
`TAB_SIZE`, stopping at `buffer_size - 1`. -/
def mdTabPad (pos bufsize : Nat) : Nat :=
  min ((TAB_SIZE - (pos + 1) % TAB_SIZE) % TAB_SIZE) (bufsize - 1 - (pos + 1))

/-- State of the inline scan: written bytes, write index, and the three
toggles `in_bold` / `in_italic` / `in_code`. -/
structure MdScan where
  out : List Char
  pos : Nat
  inBold : Bool
  inItalic : Bool
  inCode : Bool
deriving Repr, DecidableEq

/-- The inline scan loop
`while (i < row->size && pos < buffer_size - 2)` shared verbatim by the
list-item and normal-text branches of `renderMarkdown`: a tab expands to
blanks, `**` toggles bold, a single `*` toggles italic, a backtick
toggles inline code (each toggle emitting the corresponding escape), and
any other byte is copied under the `pos < buffer_size - 2` guard. -/
def mdInline (bufsize : Nat) : List Char → MdScan → MdScan
  | [], st => st
  | '\t' :: rest, st =>
    if bufsize - 2 ≤ st.pos then st
    else
      let n := 1 + mdTabPad st.pos bufsize
      mdInline bufsize rest
        { st with out := st.out ++ List.replicate n ' ', pos := st.pos + n }
  | '*' :: '*' :: rest, st =>
    if bufsize - 2 ≤ st.pos then st
    else
      let w := snprintfApp st.out st.pos bufsize (if st.inBold then escReset else escBoldOn)
      mdInline bufsize rest { st with out := w.1, pos := w.2, inBold := !st.inBold }
  | '*' :: rest, st =>
    if bufsize - 2 ≤ st.pos then st
    else
      let w := snprintfApp st.out st.pos bufsize (if st.inItalic then escReset else escItalicOn)
      mdInline bufsize rest { st with out := w.1, pos := w.2, inItalic := !st.inItalic }
  | c :: rest, st =>
    if bufsize - 2 ≤ st.pos then st
    else if c = backquote then
      let w := snprintfApp st.out st.pos bufsize (if st.inCode then escReset else escCyan)
      mdInline bufsize rest { st with out := w.1, pos := w.2, inCode := !st.inCode }
    else
      let st' := if st.pos < bufsize - 2 then
          { st with out := st.out ++ [c], pos := st.pos + 1 }
        else st
      mdInline bufsize rest st'

/-- The leading-blank expansion loop of the list-item branch: spaces are
copied (unguarded write), tabs expand as in `mdTabPad`; returns the
output so far and the unconsumed suffix. -/
def mdLeadingWs (bufsize : Nat) : List Char → List Char → Nat → (List Char × Nat) × List Char
  | '\t' :: rest, o, p =>
    mdLeadingWs bufsize rest (o ++ List.replicate (1 + mdTabPad p bufsize) ' ')
      (p + (1 + mdTabPad p bufsize))
  | ' ' :: rest, o, p => mdLeadingWs bufsize rest (o ++ [' ']) (p + 1)
  | l, o, p => ((o, p), l)

/-- The header branch of `renderMarkdown`: ESC[fontSize;1m, the `#`
marks, a space, the text after them, and a reset. -/
def renderHeaderBranch (chars : List Char) (headerLevel bufsize : Nat) : List Char :=
  let w1 := if 1 ≤ headerLevel ∧ headerLevel ≤ 6 then
      snprintfApp [] 0 bufsize (escHeader headerLevel)
    else ([], 0)
  let hashCount := min headerLevel (bufsize - 2 - w1.2)
  let o2 := w1.1 ++ List.replicate hashCount '#'
  let p2 := w1.2 + hashCount
  let w3 := if p2 < bufsize - 2 then (o2 ++ [' '], p2 + 1) else (o2, p2)
  let w4 := snprintfApp w3.1 w3.2 bufsize (chars.drop (headerLevel + 1))
  (snprintfApp w4.1 w4.2 bufsize escReset).1

/-- The list-item branch of `renderMarkdown`: expanded leading blanks, a
bold bullet, then the inline scan of the text after the bullet.  The
scan's output is returned as is: unlike the normal-text branch, no reset
is appended for a formatting state still open at the end of the line. -/
def renderListBranch (chars : List Char) (bufsize : Nat) : List Char :=
  let lw := mdLeadingWs bufsize chars [] 0
  let bullet := lw.2.getD 0 nulChar
  let w1 := snprintfApp lw.1.1 lw.1.2 bufsize (escBoldOn ++ [bullet] ++ escReset)
  let afterBullet := lw.2.tail.dropWhile (fun c => c == ' ' || c == '\t')
  (mdInline bufsize afterBullet
    { out := w1.1, pos := w1.2, inBold := false, inItalic := false, inCode := false }).out

/-- The fenced-line branch of `renderMarkdown`: the backticks and the
rest of the line in cyan, then a reset. -/
def renderCodeBlockBranch (chars : List Char) (bufsize : Nat) : List Char :=
  (snprintfApp [] 0 bufsize
    (escCyan ++ [backquote, backquote, backquote] ++ chars.drop 3 ++ escReset)).1

/-- The normal-text branch of `renderMarkdown`: the inline scan,
followed by
`if ((in_bold || in_italic || in_code) && pos < buffer_size - 5)` —
a reset whenever a formatting state is still open at the end of the
line (and room remains). -/
def renderNormalBranch (chars : List Char) (bufsize : Nat) : List Char :=
  let sc := mdInline bufsize chars
    { out := [], pos := 0, inBold := false, inItalic := false, inCode := false }
  if (sc.inBold || sc.inItalic || sc.inCode) ∧ sc.pos < bufsize - 5 then
    (snprintfApp sc.out sc.pos bufsize escReset).1
  else sc.out

/-- `renderMarkdown(row, width, buffer, buffer_size)`: classify the row
(header / list item / horizontal rule / fenced code line / normal text)
and emit the styled bytes of the matching branch. -/
def renderMarkdown (row : EditorRow) (width bufsize : Nat) : List Char :=
  let chars := rowContent row
  let headerLevel := isHeaderLine chars
  if headerLevel ≠ 0 then
    renderHeaderBranch chars headerLevel bufsize
  else if isListItem chars then
    renderListBranch chars bufsize
  else if isHorizontalRule chars then
    List.replicate (min (width - 1) (bufsize - 2)) '-'
  else if isCodeBlock chars then
    renderCodeBlockBranch chars bufsize
  else
    renderNormalBranch chars bufsize

/-- The tab count of `editorUpdateRow`'s first loop. -/
def countTabs (l : List Char) : Nat := (l.filter (fun c => c == '\t')).length

/-- Whether every tab of the content begins at a tab-stop render column
(a multiple of `TAB_SIZE`), walking the render positions exactly as the
render loop does.  Precisely for such contents a tab expands to the full
`TAB_SIZE` spaces. -/
def tabsAligned : List Char → Nat → Bool
  | [], _ => true
  | c :: rest, idx =>
    if c = '\t' then (idx % TAB_SIZE == 0) && tabsAligned rest (idx + tabSpaces idx)
    else tabsAligned rest (idx + 1)

/-- The row invariant: the buffer is the full `capacity`-byte
allocation, there is room for the terminator, and `chars[size]` is the
NUL byte. -/
def RowWF (r : EditorRow) : Prop :=
  r.buf.length = r.capacity ∧ r.size + 1 ≤ r.capacity ∧ r.buf.getD r.size 'x' = nulChar

instance (r : EditorRow) : Decidable (RowWF r) := by
  unfold RowWF
  infer_instance

/-- Lifting `RowWF` over a `RowMutResult`: a state the engine keeps
running with must satisfy the invariant; `fatal` has no surviving
state. -/
def RowMutWF : RowMutResult → Prop
  | .completed r => RowWF r
  | .earlyReturn r => RowWF r
  | .fatal => True

/-- A row content the round trip is claimed for, as amended: no newline
byte, no NUL byte, not ending in a carriage return, and shorter than
`MAX_LINE_LENGTH`. -/
def goodRow (r : List Char) : Prop :=
  (∀ c ∈ r, c ≠ '\n' ∧ c ≠ nulChar) ∧ r.getLast? ≠ some '\r' ∧
    r.length < MAX_LINE_LENGTH

instance (r : List Char) : Decidable (goodRow r) := by
  unfold goodRow
  infer_instance

/-! ## Render and coordinate-mapping lemmas -/

theorem countTabs_cons (c : Char) (l : List Char) :
    countTabs (c :: l) = (if c = '\t' then 1 else 0) + countTabs l := by
  by_cases h : c = '\t'
  · simp [countTabs, List.filter_cons, h]
    omega
  · simp [countTabs, List.filter_cons, h]

theorem tabSpaces_pos (idx : Nat) : 1 ≤ tabSpaces idx := by
  have := Nat.mod_lt idx (show 0 < 4 by norm_num)
  simp only [tabSpaces, TAB_SIZE]
  omega

theorem tabSpaces_le (idx : Nat) : tabSpaces idx ≤ TAB_SIZE := by
  simp only [tabSpaces, TAB_SIZE]
  omega

/-- A tab at render position `idx` advances the position to
`idx + tabSpaces idx`, the next multiple of `TAB_SIZE`. -/
theorem tabSpaces_next_tab_stop (idx : Nat) :
    idx + tabSpaces idx = TAB_SIZE * (idx / TAB_SIZE + 1) := by
  have h := Nat.mod_lt idx (show 0 < 4 by norm_num)
  have h2 := Nat.div_add_mod idx 4
  simp only [tabSpaces, TAB_SIZE]
  omega

/-- The render is never longer than
`size + tabs * (TAB_SIZE - 1)` — the bound the source uses to size the
`malloc` of the render buffer. -/
theorem renderChars_length_le (l : List Char) :
    ∀ idx, (renderChars l idx).length ≤ l.length + countTabs l * (TAB_SIZE - 1) := by
  induction l with
  | nil => intro idx; simp [renderChars, countTabs]
  | cons c rest ih =>
    intro idx
    rw [countTabs_cons]
    by_cases hc : c = '\t'
    · rw [show renderChars (c :: rest) idx =
          List.replicate (tabSpaces idx) ' ' ++ renderChars rest (idx + tabSpaces idx) by
        simp only [renderChars, if_pos hc]]
      rw [if_pos hc]
      simp only [List.length_append, List.length_replicate, List.length_cons]
      have h1 := tabSpaces_le idx
      have h2 := ih (idx + tabSpaces idx)
      simp only [TAB_SIZE] at *
      omega
    · rw [show renderChars (c :: rest) idx = c :: renderChars rest (idx + 1) by
        simp only [renderChars, if_neg hc]]
      rw [if_neg hc]
      simp only [List.length_cons]
      have h2 := ih (idx + 1)
      simp only [TAB_SIZE] at *
      omega

/-- A tab-free content renders to itself. -/
theorem renderChars_of_no_tab (l : List Char) :
    ∀ idx, countTabs l = 0 → renderChars l idx = l := by
  induction l with
  | nil => intro idx _; simp [renderChars]
  | cons c rest ih =>
    intro idx h
    rw [countTabs_cons] at h
    by_cases hc : c = '\t'
    · simp [hc] at h
    · simp only [if_neg hc, Nat.zero_add] at h
      simp [renderChars, if_neg hc, ih (idx + 1) h]

/-- When every tab begins at a tab-stop column, each expands to the full
`TAB_SIZE` spaces and the render length meets the
`size + tabs * (TAB_SIZE - 1)` bound exactly. -/
theorem renderChars_length_aligned (l : List Char) :
    ∀ idx, tabsAligned l idx = true →
      (renderChars l idx).length = l.length + countTabs l * (TAB_SIZE - 1) := by
  induction l with
  | nil =>
    intro idx _
    simp [renderChars, countTabs]
  | cons c rest ih =>
    intro idx ha
    rw [countTabs_cons]
    by_cases hc : c = '\t'
    · rw [show tabsAligned (c :: rest) idx
          = ((idx % TAB_SIZE == 0) && tabsAligned rest (idx + tabSpaces idx)) by
        simp only [tabsAligned, if_pos hc]] at ha
      obtain ⟨hmod, hrest⟩ := Bool.and_eq_true_iff.mp ha
      have hmod' : idx % TAB_SIZE = 0 := by simpa using hmod
      rw [show renderChars (c :: rest) idx =
          List.replicate (tabSpaces idx) ' ' ++ renderChars rest (idx + tabSpaces idx) by
        simp only [renderChars, if_pos hc]]
      rw [if_pos hc]
      simp only [List.length_append, List.length_replicate, List.length_cons]
      have h2 := ih (idx + tabSpaces idx) hrest
      have h4 : tabSpaces idx = TAB_SIZE := by
        simp [tabSpaces, hmod']
      simp only [h4, TAB_SIZE] at *
      omega
    · rw [show tabsAligned (c :: rest) idx = tabsAligned rest (idx + 1) by
        simp only [tabsAligned, if_neg hc]] at ha
      rw [show renderChars (c :: rest) idx = c :: renderChars rest (idx + 1) by
        simp only [renderChars, if_neg hc]]
      rw [if_neg hc]
      simp only [List.length_cons]
      have h2 := ih (idx + 1) ha
      simp only [TAB_SIZE] at *
      omega

/-- When some tab begins off a tab-stop column it expands to fewer than
`TAB_SIZE` spaces, and the render length falls strictly below the
`size + tabs * (TAB_SIZE - 1)` bound. -/
theorem renderChars_length_misaligned (l : List Char) :
    ∀ idx, tabsAligned l idx = false →
      (renderChars l idx).length < l.length + countTabs l * (TAB_SIZE - 1) := by
  induction l with
  | nil =>
    intro idx ha
    simp [tabsAligned] at ha
  | cons c rest ih =>
    intro idx ha
    rw [countTabs_cons]
    by_cases hc : c = '\t'
    · rw [show tabsAligned (c :: rest) idx
          = ((idx % TAB_SIZE == 0) && tabsAligned rest (idx + tabSpaces idx)) by
        simp only [tabsAligned, if_pos hc]] at ha
      rw [show renderChars (c :: rest) idx =
          List.replicate (tabSpaces idx) ' ' ++ renderChars rest (idx + tabSpaces idx) by
        simp only [renderChars, if_pos hc]]
      rw [if_pos hc]
      simp only [List.length_cons, List.length_append, List.length_replicate]
      rcases Bool.and_eq_false_iff.mp ha with hmod | hrest
      · have hmod' : ¬(idx % TAB_SIZE = 0) := by simpa using hmod
        have h3 : tabSpaces idx ≤ TAB_SIZE - 1 := by
          have hlt := Nat.mod_lt idx (show 0 < 4 by norm_num)
          simp only [tabSpaces, TAB_SIZE] at *
          omega
        have h2 := renderChars_length_le rest (idx + tabSpaces idx)
        simp only [TAB_SIZE] at *
        omega
      · have h2 := ih (idx + tabSpaces idx) hrest
        have h4 := tabSpaces_le idx
        simp only [TAB_SIZE] at *
        omega
    · rw [show tabsAligned (c :: rest) idx = tabsAligned rest (idx + 1) by
        simp only [tabsAligned, if_neg hc]] at ha
      rw [show renderChars (c :: rest) idx = c :: renderChars rest (idx + 1) by
        simp only [renderChars, if_neg hc]]
      rw [if_neg hc]
      simp only [List.length_cons]
      have h2 := ih (idx + 1) ha
      simp only [TAB_SIZE] at *
      omega

/-- `editorRowCxToRx`'s running `rx` tracks exactly the length of the
rendered output: the two loops implement the same position recurrence. -/
theorem cxToRxList_eq_renderChars (l : List Char) :
    ∀ rx, cxToRxList rx l = rx + (renderChars l rx).length := by
  induction l with
  | nil => intro rx; simp [cxToRxList, renderChars]
  | cons c rest ih =>
    intro rx
    by_cases hc : c = '\t'
    · rw [show cxToRxList rx (c :: rest) =
          cxToRxList (rx + (TAB_SIZE - 1 - rx % TAB_SIZE) + 1) rest by
        simp only [cxToRxList, if_pos hc]]
      rw [show renderChars (c :: rest) rx =
          List.replicate (tabSpaces rx) ' ' ++ renderChars rest (rx + tabSpaces rx) by
        simp only [renderChars, if_pos hc]]
      simp only [List.length_append, List.length_replicate]
      have h := Nat.mod_lt rx (show 0 < 4 by norm_num)
      have harg : rx + (TAB_SIZE - 1 - rx % TAB_SIZE) + 1 = rx + tabSpaces rx := by
        simp only [tabSpaces, TAB_SIZE]
        omega
      rw [harg, ih]
      omega
    · rw [show cxToRxList rx (c :: rest) = cxToRxList (rx + 1) rest by
        simp only [cxToRxList, if_neg hc]]
      rw [show renderChars (c :: rest) rx = c :: renderChars rest (rx + 1) by
        simp only [renderChars, if_neg hc]]
      simp only [List.length_cons]
      rw [ih]
      omega

theorem cxToRxList_append (l m : List Char) :
    ∀ rx, cxToRxList rx (l ++ m) = cxToRxList (cxToRxList rx l) m := by
  induction l with
  | nil => intro rx; simp [cxToRxList]
  | cons c rest ih => intro rx; simp only [List.cons_append, cxToRxList]; exact ih _

theorem le_cxToRxList (l : List Char) : ∀ rx, rx ≤ cxToRxList rx l := by
  induction l with
  | nil => intro rx; simp [cxToRxList]
  | cons c rest ih =>
    intro rx
    simp only [cxToRxList]
    refine le_trans ?_ (ih _)
    split <;> omega

/-- C5.  `editorRowCxToRx` is monotone in `cx`, equals the length of the
render of the first `cx` characters (the direct computation from the
rendered text), and maps `size` to the row's `rsize`. -/
theorem editorRowCxToRx_monotone_and_agrees (row : EditorRow) (cx1 cx2 : Nat)
    (h : cx1 ≤ cx2) :
    editorRowCxToRx row cx1 ≤ editorRowCxToRx row cx2 ∧
    (∀ cx, editorRowCxToRx row cx = (renderChars (row.buf.take cx) 0).length) ∧
    editorRowCxToRx row row.size = (editorUpdateRow row).rsize := by
  refine ⟨?_, ?_, ?_⟩
  · have hsplit : row.buf.take cx2 = row.buf.take cx1 ++ (List.take (cx2 - cx1) (row.buf.drop cx1)) := by
      have := List.take_add row.buf cx1 (cx2 - cx1)
      rw [Nat.add_sub_cancel' h] at this
      exact this
    unfold editorRowCxToRx
    rw [hsplit, cxToRxList_append]
    exact le_cxToRxList _ _
  · intro cx
    unfold editorRowCxToRx
    rw [cxToRxList_eq_renderChars, Nat.zero_add]
  · unfold editorRowCxToRx editorUpdateRow rowContent
    rw [cxToRxList_eq_renderChars, Nat.zero_add]

/-- Witness for C5 at a concrete mixed tabs/text row. -/
theorem editorRowCxToRx_monotone_and_agrees_witness :
    (1 : Nat) ≤ 2 ∧
    (editorRowCxToRx (mkRow ['a', '\t', 'b']) 1 ≤ editorRowCxToRx (mkRow ['a', '\t', 'b']) 2 ∧
     (∀ cx, editorRowCxToRx (mkRow ['a', '\t', 'b']) cx =
        (renderChars ((mkRow ['a', '\t', 'b']).buf.take cx) 0).length) ∧
     editorRowCxToRx (mkRow ['a', '\t', 'b']) (mkRow ['a', '\t', 'b']).size =
        (editorUpdateRow (mkRow ['a', '\t', 'b'])).rsize) :=
  ⟨by decide, editorRowCxToRx_monotone_and_agrees (mkRow ['a', '\t', 'b']) 1 2 (by decide)⟩

/-- C4 counterexample: in the row `"a\t"` the tab starts at render
position 1 (not a tab stop), expands to 3 spaces, and
`rsize = 4 ≠ 5 = size + tabs * (TAB_SIZE - 1)`. -/
theorem updateRow_rsize_ne_formula :
    (mkRow ['a', '\t']).rsize ≠
      (mkRow ['a', '\t']).size + countTabs (rowContent (mkRow ['a', '\t'])) * (TAB_SIZE - 1) := by
  decide

/-- C4 as amended: after `editorUpdateRow`, every tab expands to spaces
reaching the next multiple of `TAB_SIZE`, and `rsize` is at most
`size + tabs * (TAB_SIZE - 1)` (the source's allocation bound);
`rsize` equals the content length plus `tabs * (TAB_SIZE - 1)` precisely
when every tab of the row begins at a tab-stop render column; a
tab-free row renders to its content unchanged, and under the row
invariant the content length is `size`. -/
theorem updateRow_rsize_bound (r : EditorRow) :
    (editorUpdateRow r).rsize ≤ r.size + countTabs (rowContent r) * (TAB_SIZE - 1) ∧
    (∀ idx, idx + tabSpaces idx = TAB_SIZE * (idx / TAB_SIZE + 1)) ∧
    ((editorUpdateRow r).rsize
        = (rowContent r).length + countTabs (rowContent r) * (TAB_SIZE - 1)
      ↔ tabsAligned (rowContent r) 0 = true) ∧
    (countTabs (rowContent r) = 0 → (editorUpdateRow r).rsize = (rowContent r).length) ∧
    (RowWF r → (rowContent r).length = r.size) := by
  refine ⟨?_, tabSpaces_next_tab_stop, ⟨?_, ?_⟩, ?_, ?_⟩
  · have h := renderChars_length_le (rowContent r) 0
    have hlen : (rowContent r).length ≤ r.size := by
      simp [rowContent, List.length_take]
    simp only [editorUpdateRow]
    omega
  · intro heq
    by_contra hcon
    have hfalse : tabsAligned (rowContent r) 0 = false := by
      cases h : tabsAligned (rowContent r) 0
      · rfl
      · exact absurd h hcon
    have := renderChars_length_misaligned (rowContent r) 0 hfalse
    simp only [editorUpdateRow] at heq
    omega
  · intro ha
    simp only [editorUpdateRow]
    exact renderChars_length_aligned (rowContent r) 0 ha
  · intro h
    simp only [editorUpdateRow, renderChars_of_no_tab _ 0 h]
  · intro hwf
    obtain ⟨h1, h2, _⟩ := hwf
    simp only [rowContent, List.length_take]
    omega

/-- Witness for C4 (amended): the misaligned-tab row `"a\t"` stays
strictly below the bound, the aligned-tab row `"\ta"` meets it exactly,
the tab-free row `"x"` renders unchanged, and a well-formed row's
content length is its size. -/
theorem updateRow_rsize_bound_witness :
    ((editorUpdateRow (mkRow ['a', '\t'])).rsize ≤
      (mkRow ['a', '\t']).size + countTabs (rowContent (mkRow ['a', '\t'])) * (TAB_SIZE - 1)) ∧
    tabsAligned (rowContent (mkRow ['\t', 'a'])) 0 = true ∧
    ((editorUpdateRow (mkRow ['\t', 'a'])).rsize
      = (rowContent (mkRow ['\t', 'a'])).length
          + countTabs (rowContent (mkRow ['\t', 'a'])) * (TAB_SIZE - 1)) ∧
    ¬tabsAligned (rowContent (mkRow ['a', '\t'])) 0 = true ∧
    (editorUpdateRow (mkRow ['x'])).rsize = (rowContent (mkRow ['x'])).length ∧
    (rowContent (mkRow ['a', '\t'])).length = (mkRow ['a', '\t']).size :=
  ⟨(updateRow_rsize_bound (mkRow ['a', '\t'])).1,
    by decide,
    (updateRow_rsize_bound (mkRow ['\t', 'a'])).2.2.1.mpr (by decide),
    fun h => absurd ((updateRow_rsize_bound (mkRow ['a', '\t'])).2.2.1.mpr h) (by decide),
    (updateRow_rsize_bound (mkRow ['x'])).2.2.2.1 (by decide),
    (updateRow_rsize_bound (mkRow ['a', '\t'])).2.2.2.2 (by decide)⟩

/-! ## Buffer algebra -/

theorem take_set_of_le {α : Type} (l : List α) (i n : Nat) (a : α) (h : n ≤ i) :
    (l.set i a).take n = l.take n := by
  apply List.ext_getElem?
  intro j
  simp only [List.getElem?_take]
  split
  · exact List.getElem?_set_ne (by omega)
  · rfl

theorem take_set_comm {α : Type} (l : List α) (i n : Nat) (a : α) (h : i < n) :
    (l.set i a).take n = (l.take n).set i a := by
  apply List.ext_getElem?
  intro j
  simp only [List.getElem?_take, List.getElem?_set, List.length_take]
  by_cases hij : i = j
  · subst hij
    by_cases hil : i < l.length
    · simp [h, hil, lt_min_iff]
    · simp [h, hil, lt_min_iff]
  · simp [hij]

theorem set_take_succ {α : Type} (B : List α) (p : Nat) (c : α) (hp : p < B.length) :
    (B.take (p + 1)).set p c = B.take p ++ [c] := by
  have h1 : ∃ b, B[p]? = some b := ⟨B[p], List.getElem?_eq_getElem hp⟩
  obtain ⟨b, hb⟩ := h1
  rw [List.take_succ, hb]
  show (List.take p B ++ [b]).set p c = List.take p B ++ [c]
  have hlen : (List.take p B).length = p := by simp [List.length_take]; omega
  rw [List.set_append, if_neg (by omega), hlen, Nat.sub_self]
  rfl

theorem take_append_cons {α : Type} (A : List α) (c : α) (B : List α) :
    (A ++ c :: B).take A.length = A := by
  rw [List.take_append_of_le_length (le_refl _), List.take_length]

theorem drop_append_cons {α : Type} (A : List α) (c : α) (B : List α) :
    (A ++ c :: B).drop (A.length + 1) = B := by
  rw [List.drop_append]
  rfl

theorem getD_append_length {α : Type} (s : List α) (c d : α) (t : List α) :
    (s ++ c :: t).getD s.length d = c := by
  rw [List.getD_eq_getElem?_getD, List.getElem?_append, if_neg (by omega)]
  simp

theorem getD_take {α : Type} (l : List α) (i m : Nat) (d : α) (h : i < m) :
    (l.take m).getD i d = l.getD i d := by
  rw [List.getD_eq_getElem?_getD, List.getD_eq_getElem?_getD, List.getElem?_take, if_pos h]

theorem memmove_length (l : List Char) (dst src n : Nat)
    (h1 : dst + n ≤ l.length) (h2 : src + n ≤ l.length) :
    (memmove l dst src n).length = l.length := by
  simp only [memmove, List.length_append, List.length_take, List.length_drop]
  omega

/-- The buffer after the `memmove`/store of `editorRowInsertChar`, below
the new terminator: the first `p` bytes, the new byte, and the former
bytes from `p` on. -/
theorem insertChar_buffer_take (B : List Char) (p size : Nat) (c : Char)
    (hp : p ≤ size) (hB : size + 2 ≤ B.length) :
    ((memmove B (p + 1) p (size - p + 1)).set p c).take (size + 1)
      = B.take p ++ c :: (B.drop p).take (size - p) := by
  have hA : (B.take (p + 1)).length = p + 1 := by simp [List.length_take]; omega
  rw [take_set_comm _ _ _ _ (by omega)]
  have hmm : (memmove B (p + 1) p (size - p + 1)).take (size + 1)
      = B.take (p + 1) ++ (B.drop p).take (size - p) := by
    rw [memmove, List.append_assoc]
    have hsz : size + 1 = (B.take (p + 1)).length + (size - p) := by omega
    rw [hsz, List.take_append]
    congr 1
    rw [List.take_append_of_le_length (by simp [List.length_take, List.length_drop]; omega),
      List.take_take]
    congr 1
    omega
  rw [hmm, List.set_append, if_pos (by omega), set_take_succ _ _ _ (by omega)]
  simp [List.append_assoc]

/-- The byte at the new `size` after `editorRowInsertChar`'s shift: the
old terminator, moved up by one. -/
theorem insertChar_buffer_getD (B : List Char) (p size : Nat) (c d : Char)
    (hp : p ≤ size) (hB : size + 2 ≤ B.length) :
    ((memmove B (p + 1) p (size - p + 1)).set p c).getD (size + 1) d = B.getD size d := by
  have hA : (B.take (p + 1)).length = p + 1 := by simp [List.length_take]; omega
  have hM : ((B.drop p).take (size - p + 1)).length = size - p + 1 := by
    simp [List.length_take, List.length_drop]
    omega
  rw [List.getD_eq_getElem?_getD, List.getElem?_set_ne (by omega), memmove,
    List.append_assoc, List.getElem?_append, if_neg (by omega), hA,
    List.getElem?_append, if_pos (by omega), List.getElem?_take, if_pos (by omega),
    List.getElem?_drop, List.getD_eq_getElem?_getD]
  congr 2
  omega

/-- The buffer after the `memmove` of `editorRowDelChar`, below the new
terminator position. -/
theorem delChar_buffer_take (B : List Char) (p size : Nat)
    (hp : p < size) (hB : size + 1 ≤ B.length) :
    (memmove B p (p + 1) (size - p)).take (size - 1)
      = B.take p ++ (B.drop (p + 1)).take (size - 1 - p) := by
  have hA : (B.take p).length = p := by simp [List.length_take]; omega
  rw [memmove, List.append_assoc]
  have hsz : size - 1 = (B.take p).length + (size - 1 - p) := by omega
  rw [hsz, List.take_append]
  congr 1
  rw [List.take_append_of_le_length (by simp [List.length_take, List.length_drop]; omega),
    List.take_take]
  congr 1
  omega

/-- The byte at the new `size` after `editorRowDelChar`'s shift: the old
terminator, moved down by one. -/
theorem delChar_buffer_getD (B : List Char) (p size : Nat) (d : Char)
    (hp : p < size) (hB : size + 1 ≤ B.length) :
    (memmove B p (p + 1) (size - p)).getD (size - 1) d = B.getD size d := by
  have hA : (B.take p).length = p := by simp [List.length_take]; omega
  have hM : ((B.drop (p + 1)).take (size - p)).length = size - p := by
    simp [List.length_take, List.length_drop]
    omega
  rw [List.getD_eq_getElem?_getD, memmove, List.append_assoc,
    List.getElem?_append, if_neg (by omega), hA,
    List.getElem?_append, if_pos (by omega), List.getElem?_take, if_pos (by omega),
    List.getElem?_drop, List.getD_eq_getElem?_getD]
  congr 2
  omega

/-- The buffer after the `memcpy`/terminate of `editorRowAppendString`,
up to the new size: the old content followed by the appended bytes. -/
theorem appendString_buffer_take (B : List Char) (sz : Nat) (s : List Char)
    (hB : sz + s.length + 1 ≤ B.length) :
    ((memcpyIn B sz s).set (sz + s.length) nulChar).take (sz + s.length)
      = B.take sz ++ s := by
  rw [take_set_of_le _ _ _ _ (le_refl _), memcpyIn, List.append_assoc]
  have hA : (B.take sz).length = sz := by simp [List.length_take]; omega
  have hsz : sz + s.length = (B.take sz).length + s.length := by omega
  rw [hsz, List.take_append]
  congr 1
  rw [List.take_append_of_le_length (le_refl _), List.take_length]

theorem memcpyIn_length (B : List Char) (sz : Nat) (s : List Char)
    (hB : sz + s.length ≤ B.length) :
    (memcpyIn B sz s).length = B.length := by
  simp only [memcpyIn, List.length_append, List.length_take, List.length_drop]
  omega

theorem appendString_buffer_getD (B : List Char) (sz : Nat) (s : List Char) (d : Char)
    (hB : sz + s.length + 1 ≤ B.length) :
    ((memcpyIn B sz s).set (sz + s.length) nulChar).getD (sz + s.length) d = nulChar := by
  rw [List.getD_eq_getElem?_getD,
    List.getElem?_set_self (by rw [memcpyIn_length _ _ _ (by omega)]; omega)]
  rfl

/-! ## The row invariant and per-operation characterizations -/

theorem updateRow_buf (r : EditorRow) : (editorUpdateRow r).buf = r.buf := rfl

theorem updateRow_size (r : EditorRow) : (editorUpdateRow r).size = r.size := rfl

theorem updateRow_capacity (r : EditorRow) : (editorUpdateRow r).capacity = r.capacity := rfl

theorem rowWF_updateRow (r : EditorRow) : RowWF (editorUpdateRow r) ↔ RowWF r := Iff.rfl

theorem rowContent_updateRow (r : EditorRow) : rowContent (editorUpdateRow r) = rowContent r := rfl

theorem mkRow_size (s : List Char) : (mkRow s).size = s.length := rfl

theorem mkRow_capacity (s : List Char) : (mkRow s).capacity = s.length + 1 := rfl

theorem mkRow_content (s : List Char) : rowContent (mkRow s) = s := by
  show (s ++ [nulChar]).take s.length = s
  rw [List.take_append_of_le_length (le_refl _), List.take_length]

theorem mkRow_wf (s : List Char) : RowWF (mkRow s) := by
  refine ⟨by simp [mkRow, editorUpdateRow], by simp [mkRow, editorUpdateRow], ?_⟩
  show (s ++ [nulChar]).getD s.length 'x' = nulChar
  exact getD_append_length s nulChar 'x' []

theorem rowWF_size_lt_buf (r : EditorRow) (hwf : RowWF r) : r.size < r.buf.length := by
  obtain ⟨h1, h2, _⟩ := hwf
  omega

theorem rowContent_length (r : EditorRow) (hwf : RowWF r) :
    (rowContent r).length = r.size := by
  have := rowWF_size_lt_buf r hwf
  simp [rowContent, List.length_take]
  omega

/-- The grown capacity of `editorRowInsertChar` always fits the new
size plus terminator, and never shrinks. -/
theorem insertCharGrownCap_ge (r : EditorRow) (hwf : RowWF r) :
    r.size + 2 ≤ insertCharGrownCap r ∧ r.capacity ≤ insertCharGrownCap r := by
  obtain ⟨h1, h2, _⟩ := hwf
  unfold insertCharGrownCap
  split
  · rw [if_neg (by omega)]
    omega
  · omega

/-- What `insertCharCore` does to a well-formed row at an in-range
index: the byte is inserted in the content, the size grows by one, the
invariant is preserved, and the capacity is the (possibly doubled)
`insertCharGrownCap`. -/
theorem insertCharCore_spec (r : EditorRow) (p : Nat) (c : Char)
    (hwf : RowWF r) (hp : p ≤ r.size) :
    rowContent (insertCharCore r p c)
        = (rowContent r).take p ++ c :: (rowContent r).drop p ∧
    (insertCharCore r p c).size = r.size + 1 ∧
    RowWF (insertCharCore r p c) ∧
    (insertCharCore r p c).capacity = insertCharGrownCap r := by
  obtain ⟨hlen, hcap, hnul⟩ := hwf
  have hge := insertCharGrownCap_ge r ⟨hlen, hcap, hnul⟩
  set newCap := insertCharGrownCap r with hnc
  set B := r.buf ++ List.replicate (newCap - r.capacity) nulChar with hBdef
  have hBlen : B.length = newCap := by
    simp [hBdef, List.length_append, List.length_replicate, hlen]
    omega
  have hB2 : r.size + 2 ≤ B.length := by omega
  have hcontent : rowContent (insertCharCore r p c)
      = ((memmove B (p + 1) p (r.size - p + 1)).set p c).take (r.size + 1) := rfl
  refine ⟨?_, rfl, ⟨?_, ?_, ?_⟩, rfl⟩
  · rw [hcontent, insertChar_buffer_take B p r.size c hp hB2]
    have e1 : B.take p = r.buf.take p :=
      List.take_append_of_le_length (by omega)
    have e2 : (B.drop p).take (r.size - p) = (r.buf.drop p).take (r.size - p) := by
      rw [hBdef, List.drop_append_of_le_length (by omega),
        List.take_append_of_le_length (by simp [List.length_drop]; omega)]
    have e3 : (rowContent r).take p = r.buf.take p := by
      rw [rowContent, List.take_take]
      congr 1
      omega
    have e4 : (rowContent r).drop p = (r.buf.drop p).take (r.size - p) := by
      rw [rowContent, List.drop_take]
    rw [e1, e2, e3, e4]
  · show ((memmove B (p + 1) p (r.size - p + 1)).set p c).length = newCap
    rw [List.length_set, memmove_length B _ _ _ (by omega) (by omega), hBlen]
  · show r.size + 1 + 1 ≤ newCap
    omega
  · show ((memmove B (p + 1) p (r.size - p + 1)).set p c).getD (r.size + 1) 'x' = nulChar
    rw [insertChar_buffer_getD B p r.size c 'x' hp hB2, hBdef,
      List.getD_append _ _ _ _ (by omega)]
    exact hnul

/-- The `int` clamp of `editorRowInsertChar` resolves to `at` itself for
an in-range non-negative index. -/
theorem editorRowInsertChar_eq_core (r : EditorRow) (p : Nat) (c : Char)
    (hp : p ≤ r.size) :
    editorRowInsertChar r (p : Int) c = insertCharCore r p c := by
  unfold editorRowInsertChar editorRowInsertCharM
  have h1 : ¬((p : Int) < 0 ∨ (p : Int) > (r.size : Int)) := by
    push_neg
    omega
  simp [h1]
  rw [if_neg (by omega)]

/-- What `editorRowDelChar` does to a well-formed row at an in-range
index: the byte is removed from the content, the size shrinks by one,
and the invariant is preserved. -/
theorem editorRowDelChar_spec (r : EditorRow) (p : Nat)
    (hwf : RowWF r) (hp : p < r.size) :
    rowContent (editorRowDelChar r (p : Int))
        = (rowContent r).take p ++ (rowContent r).drop (p + 1) ∧
    (editorRowDelChar r (p : Int)).size = r.size - 1 ∧
    RowWF (editorRowDelChar r (p : Int)) ∧
    (editorRowDelChar r (p : Int)).render
        = renderChars (rowContent (editorRowDelChar r (p : Int))) 0 := by
  obtain ⟨hlen, hcap, hnul⟩ := hwf
  have hB : r.size + 1 ≤ r.buf.length := by omega
  have hguard : ¬((p : Int) < 0 ∨ (p : Int) ≥ (r.size : Int)) := by
    push_neg
    omega
  have heq : editorRowDelChar r (p : Int) =
      editorUpdateRow
        { r with buf := memmove r.buf p (p + 1) (r.size - p), size := r.size - 1 } := by
    unfold editorRowDelChar
    rw [if_neg hguard]
    simp
  refine ⟨?_, ?_, ⟨?_, ?_, ?_⟩, ?_⟩
  · rw [heq]
    show (memmove r.buf p (p + 1) (r.size - p)).take (r.size - 1)
        = (rowContent r).take p ++ (rowContent r).drop (p + 1)
    rw [delChar_buffer_take r.buf p r.size hp hB]
    have e3 : (rowContent r).take p = r.buf.take p := by
      rw [rowContent, List.take_take]
      congr 1
      omega
    have e4 : (rowContent r).drop (p + 1) = (r.buf.drop (p + 1)).take (r.size - 1 - p) := by
      rw [rowContent, List.drop_take]
      congr 1
      omega
    rw [e3, e4]
  · rw [heq]
    rfl
  · rw [heq]
    show (memmove r.buf p (p + 1) (r.size - p)).length = r.capacity
    rw [memmove_length _ _ _ _ (by omega) (by omega)]
    exact hlen
  · rw [heq]
    show r.size - 1 + 1 ≤ r.capacity
    omega
  · rw [heq]
    show (memmove r.buf p (p + 1) (r.size - p)).getD (r.size - 1) 'x' = nulChar
    rw [delChar_buffer_getD r.buf p r.size 'x' hp hB]
    exact hnul
  · rw [heq]
    rfl

theorem growCapFuel_ge_self : ∀ (fuel cap target : Nat), cap ≤ growCapFuel fuel cap target := by
  intro fuel
  induction fuel with
  | zero => intro cap target; exact le_refl cap
  | succ n ih =>
    intro cap target
    unfold growCapFuel
    split
    · exact le_trans (by omega) (ih (cap * 2) target)
    · exact le_refl cap

theorem growCapFuel_ge : ∀ (fuel cap target : Nat), 1 ≤ cap → target ≤ cap * 2 ^ fuel →
    target ≤ growCapFuel fuel cap target := by
  intro fuel
  induction fuel with
  | zero =>
    intro cap target h1 h2
    simpa using h2
  | succ n ih =>
    intro cap target h1 h2
    unfold growCapFuel
    split
    · refine ih (cap * 2) target (by omega) ?_
      calc target ≤ cap * 2 ^ (n + 1) := h2
        _ = cap * 2 * 2 ^ n := by ring
    · omega

/-- The doubling loop of `editorRowAppendString` reaches its target
whenever the capacity is positive. -/
theorem growCap_ge (cap target : Nat) (h : 1 ≤ cap) : target ≤ growCap cap target := by
  refine growCapFuel_ge target cap target h ?_
  calc target ≤ 2 ^ target := Nat.le_of_lt (Nat.lt_two_pow target)
    _ = 1 * 2 ^ target := (Nat.one_mul _).symm
    _ ≤ cap * 2 ^ target := Nat.mul_le_mul_right _ h

theorem growCap_ge_self (cap target : Nat) : cap ≤ growCap cap target :=
  growCapFuel_ge_self target cap target

/-- The grown capacity of `editorRowAppendString` always fits the new
size plus terminator, and never shrinks. -/
theorem appendStringGrownCap_ge (r : EditorRow) (newSize : Nat) (h : 1 ≤ r.capacity) :
    newSize + 1 ≤ appendStringGrownCap r newSize ∧
    r.capacity ≤ appendStringGrownCap r newSize := by
  unfold appendStringGrownCap
  split
  · exact ⟨growCap_ge _ _ h, growCap_ge_self _ _⟩
  · omega

/-- What `appendStringCore` does to a well-formed row: the bytes are
appended to the content, the size grows accordingly, and the invariant
is preserved. -/
theorem appendStringCore_spec (r : EditorRow) (s : List Char) (hwf : RowWF r) :
    rowContent (appendStringCore r s) = rowContent r ++ s ∧
    (appendStringCore r s).size = r.size + s.length ∧
    RowWF (appendStringCore r s) := by
  obtain ⟨hlen, hcap, hnul⟩ := hwf
  have hge := appendStringGrownCap_ge r (r.size + s.length) (by omega)
  set newCap := appendStringGrownCap r (r.size + s.length) with hnc
  set B := r.buf ++ List.replicate (newCap - r.capacity) nulChar with hBdef
  have hBlen : B.length = newCap := by
    simp [hBdef, List.length_append, List.length_replicate, hlen]
    omega
  have hB2 : r.size + s.length + 1 ≤ B.length := by omega
  refine ⟨?_, rfl, ⟨?_, ?_, ?_⟩⟩
  · show ((memcpyIn B r.size s).set (r.size + s.length) nulChar).take (r.size + s.length)
        = rowContent r ++ s
    rw [appendString_buffer_take B r.size s hB2]
    congr 1
    rw [hBdef, List.take_append_of_le_length (by omega)]
    rfl
  · show ((memcpyIn B r.size s).set (r.size + s.length) nulChar).length = newCap
    rw [List.length_set, memcpyIn_length _ _ _ (by omega), hBlen]
  · show r.size + s.length + 1 ≤ newCap
    omega
  · show ((memcpyIn B r.size s).set (r.size + s.length) nulChar).getD
        (r.size + s.length) 'x' = nulChar
    exact appendString_buffer_getD B r.size s 'x' hB2

theorem editorRowAppendString_eq_core (r : EditorRow) (s : List Char) :
    editorRowAppendString r s = appendStringCore r s := by
  unfold editorRowAppendString editorRowAppendStringM
  simp

/-! ## Claim theorems: row level -/

/-- C6.  Inserting a character at `p` and deleting at `p` restores the
row byte-for-byte: content, size, and the re-derived render. -/
theorem insert_delete_roundtrip (r : EditorRow) (p : Nat) (c : Char)
    (hwf : RowWF r) (hp : p ≤ r.size) :
    rowContent (editorRowDelChar (editorRowInsertChar r (p : Int) c) (p : Int))
        = rowContent r ∧
    (editorRowDelChar (editorRowInsertChar r (p : Int) c) (p : Int)).size = r.size ∧
    (editorRowDelChar (editorRowInsertChar r (p : Int) c) (p : Int)).render
        = (editorUpdateRow r).render := by
  rw [editorRowInsertChar_eq_core r p c hp]
  obtain ⟨hc1, hs1, hwf1, _⟩ := insertCharCore_spec r p c hwf hp
  obtain ⟨hc2, hs2, hwf2, hr2⟩ :=
    editorRowDelChar_spec (insertCharCore r p c) p hwf1 (by omega)
  have hcontent :
      rowContent (editorRowDelChar (insertCharCore r p c) (p : Int)) = rowContent r := by
    rw [hc2, hc1]
    set A := (rowContent r).take p with hA
    set B := (rowContent r).drop p with hB
    have hlenc : A.length = p := by
      rw [hA, List.length_take, rowContent_length r hwf]
      omega
    rw [← hlenc, take_append_cons, drop_append_cons, hA, hB, List.take_append_drop]
  refine ⟨hcontent, by omega, ?_⟩
  rw [hr2, hcontent]
  rfl

/-- Witness for C6 on a concrete row and position. -/
theorem insert_delete_roundtrip_witness :
    RowWF (mkRow ['a', 'b']) ∧ (1 : Nat) ≤ (mkRow ['a', 'b']).size ∧
    (rowContent (editorRowDelChar (editorRowInsertChar (mkRow ['a', 'b']) (1 : Int) 'x') (1 : Int))
        = rowContent (mkRow ['a', 'b']) ∧
     (editorRowDelChar (editorRowInsertChar (mkRow ['a', 'b']) (1 : Int) 'x') (1 : Int)).size
        = (mkRow ['a', 'b']).size ∧
     (editorRowDelChar (editorRowInsertChar (mkRow ['a', 'b']) (1 : Int) 'x') (1 : Int)).render
        = (editorUpdateRow (mkRow ['a', 'b'])).render) :=
  ⟨by decide, by decide,
    insert_delete_roundtrip (mkRow ['a', 'b']) 1 'x' (by decide) (by decide)⟩

/-- C10.  Every row operation preserves the invariant that `chars[size]`
is NUL and `size + 1 ≤ capacity` (on every surviving state, including
the allocation-failure early return of `editorRowInsertChar`). -/
theorem row_ops_preserve_wf :
    (∀ s : List Char, RowWF (mkRow s)) ∧
    (∀ (r : EditorRow) (ati : Int) (c : Char) (allocOk : Bool), RowWF r →
      RowMutWF (editorRowInsertCharM r ati c allocOk)) ∧
    (∀ (r : EditorRow) (s : List Char) (allocOk : Bool), RowWF r →
      RowMutWF (editorRowAppendStringM r s allocOk)) ∧
    (∀ (r : EditorRow) (ati : Int), RowWF r → RowWF (editorRowDelChar r ati)) := by
  refine ⟨mkRow_wf, ?_, ?_, ?_⟩
  · intro r ati c allocOk hwf
    have ha : (if ati < 0 ∨ ati > (r.size : Int) then r.size else ati.toNat) ≤ r.size := by
      split
      · exact le_refl _
      · next h =>
        push_neg at h
        omega
    unfold editorRowInsertCharM
    split
    · exact hwf
    · exact (insertCharCore_spec r _ c hwf ha).2.2.1
  · intro r s allocOk hwf
    unfold editorRowAppendStringM
    split
    · trivial
    · exact (appendStringCore_spec r s hwf).2.2
  · intro r ati hwf
    by_cases h : ati < 0 ∨ ati ≥ (r.size : Int)
    · unfold editorRowDelChar
      rw [if_pos h]
      exact hwf
    · push_neg at h
      have : ati = ((ati.toNat : Nat) : Int) := by omega
      rw [this]
      exact (editorRowDelChar_spec r ati.toNat hwf (by omega)).2.2.1

/-- Witness for C10 on concrete rows, exercising all four operations
(and both allocation outcomes of the oracle ones). -/
theorem row_ops_preserve_wf_witness :
    RowWF (mkRow ['a', 'b']) ∧
    RowMutWF (editorRowInsertCharM (mkRow ['a', 'b']) 1 'x' true) ∧
    RowMutWF (editorRowInsertCharM (mkRow ['a', 'b']) 1 'x' false) ∧
    RowMutWF (editorRowAppendStringM (mkRow ['a', 'b']) ['c'] true) ∧
    RowMutWF (editorRowAppendStringM (mkRow ['a', 'b']) ['c'] false) ∧
    RowWF (editorRowDelChar (mkRow ['a', 'b']) 0) :=
  ⟨row_ops_preserve_wf.1 ['a', 'b'],
    row_ops_preserve_wf.2.1 (mkRow ['a', 'b']) 1 'x' true (by decide),
    row_ops_preserve_wf.2.1 (mkRow ['a', 'b']) 1 'x' false (by decide),
    row_ops_preserve_wf.2.2.1 (mkRow ['a', 'b']) ['c'] true (by decide),
    row_ops_preserve_wf.2.2.1 (mkRow ['a', 'b']) ['c'] false (by decide),
    row_ops_preserve_wf.2.2.2 (mkRow ['a', 'b']) 0 (by decide)⟩

/-- C3 counterexample: on the full row `"a"` (size 1, capacity 2) an
insertion needs growth, and with `realloc` failing
`editorRowInsertChar` returns with the row unchanged — the engine keeps
running, the failure is not fatal. -/
theorem insertChar_allocFail_returns :
    (mkRow ['a']).size + 2 > (mkRow ['a']).capacity ∧
    editorRowInsertCharM (mkRow ['a']) 1 'b' false = .earlyReturn (mkRow ['a']) ∧
    editorRowInsertCharM (mkRow ['a']) 1 'b' false ≠ .fatal := by
  decide

/-- C3 as amended: when growth is needed, `editorRowInsertChar` doubles
the capacity once (floor 4) and on allocation failure returns with the
row unchanged, while `editorRowAppendString` doubles repeatedly until
the new size fits and on allocation failure is fatal. -/
theorem row_alloc_policy (r : EditorRow) (ati : Int) (c : Char) (s : List Char)
    (hwf : RowWF r) :
    (r.size + 2 > r.capacity → editorRowInsertCharM r ati c false = .earlyReturn r) ∧
    (r.size + 2 > r.capacity → (editorRowInsertChar r ati c).capacity
        = (if r.capacity * 2 = 0 then 4 else r.capacity * 2)) ∧
    (r.size + s.length ≥ r.capacity → editorRowAppendStringM r s false = .fatal) ∧
    r.size + s.length + 1 ≤ (editorRowAppendString r s).capacity := by
  refine ⟨?_, ?_, ?_, ?_⟩
  · intro hg
    unfold editorRowInsertCharM
    rw [if_pos ⟨hg, rfl⟩]
  · intro hg
    have h1 : (editorRowInsertChar r ati c).capacity = insertCharGrownCap r := by
      unfold editorRowInsertChar editorRowInsertCharM
      rw [if_neg (by simp)]
      rfl
    rw [h1, insertCharGrownCap, if_pos hg]
  · intro hg
    unfold editorRowAppendStringM
    rw [if_pos ⟨hg, rfl⟩]
  · rw [editorRowAppendString_eq_core]
    have h1 : (appendStringCore r s).capacity = appendStringGrownCap r (r.size + s.length) := rfl
    rw [h1]
    exact (appendStringGrownCap_ge r (r.size + s.length) (by obtain ⟨_, h2, _⟩ := hwf; omega)).1

/-- Witness for C3 (amended) on a concrete full row. -/
theorem row_alloc_policy_witness :
    RowWF (mkRow ['a']) ∧
    (editorRowInsertCharM (mkRow ['a']) 1 'b' false = .earlyReturn (mkRow ['a']) ∧
     (editorRowInsertChar (mkRow ['a']) 1 'b').capacity
        = (if (mkRow ['a']).capacity * 2 = 0 then 4 else (mkRow ['a']).capacity * 2) ∧
     editorRowAppendStringM (mkRow ['a']) ['b', 'c'] false = .fatal ∧
     (mkRow ['a']).size + ['b', 'c'].length + 1
        ≤ (editorRowAppendString (mkRow ['a']) ['b', 'c']).capacity) := by
  refine ⟨by decide, ?_, ?_, ?_, ?_⟩
  · exact (row_alloc_policy (mkRow ['a']) 1 'b' ['b', 'c'] (by decide)).1 (by decide)
  · exact (row_alloc_policy (mkRow ['a']) 1 'b' ['b', 'c'] (by decide)).2.1 (by decide)
  · exact (row_alloc_policy (mkRow ['a']) 1 'b' ['b', 'c'] (by decide)).2.2.1 (by decide)
  · exact (row_alloc_policy (mkRow ['a']) 1 'b' ['b', 'c'] (by decide)).2.2.2

/-! ## Claim theorems: document level -/

/-- C2 counterexample: `editorInsertRow` at `at = -1` is a plain no-op —
the row count stays 1 instead of growing to 2 as insertion at the
clamped position 0 would give, and the dirty flag stays clear. -/
theorem insertRow_negative_noop :
    (editorInsertRow
      { cx := 0, cy := 0, rows := [mkRow ['a']], dirty := false, statusmsg := "" }
      (-1) ['x']).rows.length ≠ 2 ∧
    (editorInsertRow
      { cx := 0, cy := 0, rows := [mkRow ['a']], dirty := false, statusmsg := "" }
      (-1) ['x'])
      = { cx := 0, cy := 0, rows := [mkRow ['a']], dirty := false, statusmsg := "" } := by
  decide

/-- C2 as amended: `editorInsertRow` is a no-op for `at` outside
`[0, numrows]` (the source returns instead of clamping); for `at` in
range it inserts the new row at `at`, shifts the following rows down so
the count grows by one, and sets the dirty flag. -/
theorem editorInsertRow_spec (st : EditorConfig) (ati : Int) (s : List Char) :
    ((ati < 0 ∨ ati > (numrows st : Int)) → editorInsertRow st ati s = st) ∧
    (0 ≤ ati → ati ≤ (numrows st : Int) →
      (editorInsertRow st ati s).rows
          = st.rows.take ati.toNat ++ [mkRow s] ++ st.rows.drop ati.toNat ∧
      numrows (editorInsertRow st ati s) = numrows st + 1 ∧
      (editorInsertRow st ati s).dirty = true) := by
  constructor
  · intro h
    unfold editorInsertRow
    rw [if_pos h]
  · intro h1 h2
    unfold editorInsertRow numrows at *
    rw [if_neg (by omega)]
    refine ⟨rfl, ?_, rfl⟩
    simp only [List.length_append, List.length_take, List.length_drop, List.length_cons,
      List.length_nil]
    omega

/-- Witness for C2 (amended): the no-op at `-1` and a real insertion at
`0` on a one-row document. -/
theorem editorInsertRow_spec_witness :
    (editorInsertRow
        { cx := 0, cy := 0, rows := [mkRow ['a']], dirty := false, statusmsg := "" }
        (-1) ['x']
      = { cx := 0, cy := 0, rows := [mkRow ['a']], dirty := false, statusmsg := "" }) ∧
    ((editorInsertRow
        { cx := 0, cy := 0, rows := [mkRow ['a']], dirty := false, statusmsg := "" }
        0 ['x']).rows
      = [mkRow ['x'], mkRow ['a']] ∧
     numrows (editorInsertRow
        { cx := 0, cy := 0, rows := [mkRow ['a']], dirty := false, statusmsg := "" }
        0 ['x']) = 2 ∧
     (editorInsertRow
        { cx := 0, cy := 0, rows := [mkRow ['a']], dirty := false, statusmsg := "" }
        0 ['x']).dirty = true) := by
  constructor
  · exact (editorInsertRow_spec _ (-1) ['x']).1 (by decide)
  · have h := (editorInsertRow_spec
      { cx := 0, cy := 0, rows := [mkRow ['a']], dirty := false, statusmsg := "" }
      0 ['x']).2 (by decide) (by decide)
    exact ⟨by rw [h.1]; decide, h.2.1, h.2.2⟩

/-- C1: the only search entry point, `Ctrl-F`, performs no search — on
the spec's own scenario document it leaves the cursor at the origin
(rather than moving it to the match of `"comment"` in row 1) and only
sets the "not implemented" status message. -/
theorem ctrlF_performs_no_search :
    (editorProcessCtrlF
      { cx := 0, cy := 0,
        rows := [mkRow "alpha".toList, mkRow "a comment here".toList, mkRow "beta".toList],
        dirty := false, statusmsg := "" }).cx = 0 ∧
    (editorProcessCtrlF
      { cx := 0, cy := 0,
        rows := [mkRow "alpha".toList, mkRow "a comment here".toList, mkRow "beta".toList],
        dirty := false, statusmsg := "" }).cy = 0 ∧
    ¬((editorProcessCtrlF
      { cx := 0, cy := 0,
        rows := [mkRow "alpha".toList, mkRow "a comment here".toList, mkRow "beta".toList],
        dirty := false, statusmsg := "" }).cy = 1 ∧
      (editorProcessCtrlF
      { cx := 0, cy := 0,
        rows := [mkRow "alpha".toList, mkRow "a comment here".toList, mkRow "beta".toList],
        dirty := false, statusmsg := "" }).cx = 2) ∧
    (editorProcessCtrlF
      { cx := 0, cy := 0,
        rows := [mkRow "alpha".toList, mkRow "a comment here".toList, mkRow "beta".toList],
        dirty := false, statusmsg := "" }).statusmsg
      = "Search function not implemented yet" := by
  refine ⟨rfl, rfl, ?_, rfl⟩
  intro h
  exact absurd h.1 (by decide)

/-! ## Document-level helpers for the newline/backspace round trip -/

theorem getD_append_succ {α : Type} (A : List α) (y x d : α) (B : List α) :
    (A ++ y :: x :: B).getD (A.length + 1) d = x := by
  have h := getD_append_length (A ++ [y]) x d B
  simp only [List.length_append, List.length_cons, List.length_nil] at h
  simpa [List.append_assoc] using h

theorem set_append_length {α : Type} (A : List α) (x y : α) (B : List α) :
    (A ++ x :: B).set A.length y = A ++ y :: B := by
  rw [List.set_append, if_neg (lt_irrefl _), Nat.sub_self]
  rfl

theorem eraseIdx_append_succ {α : Type} (A : List α) (y x : α) (B : List α) :
    (A ++ y :: x :: B).eraseIdx (A.length + 1) = A ++ y :: B := by
  rw [List.eraseIdx_eq_take_drop_succ, List.take_append,
    show A.length + 1 + 1 = A.length + 2 from rfl, List.drop_append]
  simp

/-- Decomposition of a list around an in-range index. -/
theorem rows_decomp {α : Type} (l : List α) (i : Nat) (d : α) (h : i < l.length) :
    l = l.take i ++ l.getD i d :: l.drop (i + 1) := by
  conv_lhs => rw [← List.take_append_drop i l, List.drop_eq_getElem_cons h]
  congr 2
  rw [List.getD_eq_getElem?_getD, List.getElem?_eq_getElem h]
  rfl

theorem editorInsertRow_at (st : EditorConfig) (k : Nat) (s : List Char)
    (hk : k ≤ numrows st) :
    editorInsertRow st (k : Int) s =
      { st with rows := st.rows.take k ++ [mkRow s] ++ st.rows.drop k, dirty := true } := by
  unfold editorInsertRow
  rw [if_neg (by push_neg; unfold numrows at hk ⊢; omega)]
  simp

theorem editorDelRow_at (st : EditorConfig) (k : Nat) (hk : k < numrows st) :
    editorDelRow st (k : Int) = { st with rows := st.rows.eraseIdx k, dirty := true } := by
  unfold editorDelRow
  rw [if_neg (by push_neg; unfold numrows at hk ⊢; omega)]
  simp

/-- What the shrink at the end of `editorInsertNewline`'s split branch
does to a well-formed row: the content is truncated to the first `m`
bytes and the invariant is preserved. -/
theorem shrinkRow_spec (r : EditorRow) (m : Nat) (hwf : RowWF r) (hm : m ≤ r.size) :
    rowContent (shrinkRow r m) = (rowContent r).take m ∧
    (shrinkRow r m).size = m ∧
    RowWF (shrinkRow r m) := by
  obtain ⟨hlen, hcap, hnul⟩ := hwf
  refine ⟨?_, rfl, ⟨?_, ?_, ?_⟩⟩
  · show (r.buf.set m nulChar).take m = (r.buf.take r.size).take m
    rw [take_set_of_le _ _ _ _ (le_refl _), List.take_take]
    congr 1
    omega
  · show (r.buf.set m nulChar).length = r.capacity
    rw [List.length_set]
    exact hlen
  · show m + 1 ≤ r.capacity
    omega
  · show (r.buf.set m nulChar).getD m 'x' = nulChar
    rw [List.getD_eq_getElem?_getD, List.getElem?_set_self (by omega)]
    rfl

/-- `editorDelChar` from column 0 of row `cy + 1`, on a document whose
rows around the cursor are exposed: it joins the cursor row onto the end
of the previous row, deletes the cursor row, and puts the cursor at the
join point. -/
theorem editorDelChar_col0 (A D : List EditorRow) (prev cur : EditorRow)
    (cyv : Nat) (dirtyv : Bool) (msg : String) (hA : A.length = cyv) :
    editorDelChar
        { cx := 0, cy := cyv + 1, rows := A ++ prev :: cur :: D,
          dirty := dirtyv, statusmsg := msg }
      = { cx := prev.size, cy := cyv,
          rows := A ++ (editorRowAppendString prev (rowContent cur)) :: D,
          dirty := true, statusmsg := msg } := by
  have hlen : (A ++ prev :: cur :: D).length = cyv + 2 + D.length := by
    simp [List.length_append, hA]
    omega
  unfold editorDelChar
  rw [if_neg (by show ¬(cyv + 1 = numrows _); unfold numrows; simp only; omega)]
  rw [if_neg (by simp)]
  rw [if_neg (by simp)]
  have hgetcur : (A ++ prev :: cur :: D).getD (cyv + 1) defaultRow = cur := by
    rw [← hA]
    exact getD_append_succ A prev cur defaultRow D
  have hgetprev : (A ++ prev :: cur :: D).getD (cyv + 1 - 1) defaultRow = prev := by
    rw [show cyv + 1 - 1 = cyv from rfl, ← hA]
    exact getD_append_length A prev defaultRow (cur :: D)
  simp only [hgetcur, hgetprev]
  have hset : (A ++ prev :: cur :: D).set (cyv + 1 - 1)
      (editorRowAppendString prev (rowContent cur))
      = A ++ (editorRowAppendString prev (rowContent cur)) :: cur :: D := by
    rw [show cyv + 1 - 1 = cyv from rfl, ← hA]
    exact set_append_length A prev _ (cur :: D)
  rw [hset]
  rw [editorDelRow_at _ (cyv + 1) (by
    unfold numrows
    simp only [List.length_append, List.length_cons, hA]
    omega)]
  have herase : (A ++ (editorRowAppendString prev (rowContent cur)) :: cur :: D).eraseIdx
      (cyv + 1) = A ++ (editorRowAppendString prev (rowContent cur)) :: D := by
    rw [← hA]
    exact eraseIdx_append_succ A _ cur D
  rw [herase]
  rfl

/-- C7.  Inserting a newline at any `(cx, cy)` with `cy < numrows` and
`cx ≤ row.size` puts the cursor at `(0, cy + 1)`, and backspacing from
there restores the original row contents and the original cursor. -/
theorem newline_backspace_roundtrip (st : EditorConfig)
    (hcy : st.cy < numrows st)
    (hwf : RowWF (st.rows.getD st.cy defaultRow))
    (hcx : st.cx ≤ (st.rows.getD st.cy defaultRow).size) :
    (editorInsertNewline st).cx = 0 ∧
    (editorInsertNewline st).cy = st.cy + 1 ∧
    (editorDelChar (editorInsertNewline st)).rows.map rowContent
        = st.rows.map rowContent ∧
    (editorDelChar (editorInsertNewline st)).cx = st.cx ∧
    (editorDelChar (editorInsertNewline st)).cy = st.cy := by
  unfold numrows at hcy
  set A := st.rows.take st.cy with hAdef
  set R := st.rows.getD st.cy defaultRow with hRdef
  set D := st.rows.drop (st.cy + 1) with hDdef
  have hrows : st.rows = A ++ R :: D := rows_decomp st.rows st.cy defaultRow hcy
  have hA : A.length = st.cy := by
    rw [hAdef, List.length_take]
    omega
  by_cases hcx0 : st.cx = 0
  · -- column 0: a blank row is inserted above, then re-joined
    have h1 : editorInsertNewline st =
        { cx := 0, cy := st.cy + 1,
          rows := st.rows.take st.cy ++ [mkRow []] ++ st.rows.drop st.cy,
          dirty := true, statusmsg := st.statusmsg } := by
      simp only [editorInsertNewline, if_pos hcx0]
      rw [editorInsertRow_at st st.cy [] (by unfold numrows; omega)]
    have hdrop : st.rows.drop st.cy = R :: D := by
      rw [hrows, ← hA, show A.length = A.length + 0 from rfl, List.drop_append]
      rfl
    have htake : st.rows.take st.cy = A := by
      rw [hrows, ← hA]
      exact take_append_cons A R D
    rw [h1, htake, hdrop]
    have h2 := editorDelChar_col0 A D (mkRow []) R st.cy true st.statusmsg hA
    have hmerge : A ++ [mkRow []] ++ (R :: D) = A ++ mkRow [] :: R :: D := by
      simp [List.append_assoc]
    rw [hmerge, h2]
    obtain ⟨hac, has, _⟩ := appendStringCore_spec (mkRow []) (rowContent R) (mkRow_wf [])
    rw [editorRowAppendString_eq_core] at *
    refine ⟨rfl, rfl, ?_, ?_, rfl⟩
    · simp only [List.map_append, List.map_cons, hrows]
      rw [hac, mkRow_content]
      rfl
    · show (mkRow []).size = st.cx
      rw [mkRow_size, hcx0]
      rfl
  · -- column > 0: the row is split, then re-joined
    have hsplit : editorInsertNewline st =
        { cx := 0, cy := st.cy + 1,
          rows := (st.rows.take (st.cy + 1) ++ [mkRow ((rowContent R).drop st.cx)]
              ++ st.rows.drop (st.cy + 1)).set st.cy
              (shrinkRow ((st.rows.take (st.cy + 1) ++ [mkRow ((rowContent R).drop st.cx)]
                ++ st.rows.drop (st.cy + 1)).getD st.cy defaultRow) st.cx),
          dirty := true, statusmsg := st.statusmsg } := by
      simp only [editorInsertNewline, if_neg hcx0]
      rw [show ((st.cy : Int) + 1) = ((st.cy + 1 : Nat) : Int) by omega]
      rw [editorInsertRow_at st (st.cy + 1) _ (by unfold numrows; omega)]
    have htake1 : st.rows.take (st.cy + 1) = A ++ [R] := by
      rw [hrows, ← hA, List.take_append]
      rfl
    have hdrop1 : st.rows.drop (st.cy + 1) = D := by
      rw [hrows, ← hA, show A.length + 1 = A.length + 1 from rfl, List.drop_append]
      rfl
    have hmerge : A ++ [R] ++ [mkRow ((rowContent R).drop st.cx)] ++ D
        = A ++ R :: mkRow ((rowContent R).drop st.cx) :: D := by
      simp [List.append_assoc]
    have hget2 : (A ++ R :: mkRow ((rowContent R).drop st.cx) :: D).getD st.cy defaultRow
        = R := by
      rw [← hA]
      exact getD_append_length A R defaultRow _
    have hset2 : (A ++ R :: mkRow ((rowContent R).drop st.cx) :: D).set st.cy
        (shrinkRow R st.cx)
        = A ++ shrinkRow R st.cx :: mkRow ((rowContent R).drop st.cx) :: D := by
      rw [← hA]
      exact set_append_length A R _ _
    rw [hsplit, htake1, hdrop1, hmerge, hget2, hset2]
    obtain ⟨hsc, hss, hswf⟩ := shrinkRow_spec R st.cx hwf hcx
    have h2 := editorDelChar_col0 A D (shrinkRow R st.cx)
      (mkRow ((rowContent R).drop st.cx)) st.cy true st.statusmsg hA
    rw [h2]
    obtain ⟨hac, has, _⟩ :=
      appendStringCore_spec (shrinkRow R st.cx) (rowContent (mkRow ((rowContent R).drop st.cx)))
        hswf
    rw [editorRowAppendString_eq_core] at *
    refine ⟨rfl, rfl, ?_, ?_, rfl⟩
    · simp only [List.map_append, List.map_cons, hrows]
      rw [hac, hsc, mkRow_content, List.take_append_drop]
    · show (shrinkRow R st.cx).size = st.cx
      exact hss

/-- Witness for C7 on the concrete document `["abc"]` with the cursor
inside the row. -/
theorem newline_backspace_roundtrip_witness :
    ((editorInsertNewline
        { cx := 2, cy := 0, rows := [mkRow ['a', 'b', 'c']], dirty := false,
          statusmsg := "" }).cx = 0 ∧
     (editorInsertNewline
        { cx := 2, cy := 0, rows := [mkRow ['a', 'b', 'c']], dirty := false,
          statusmsg := "" }).cy = 0 + 1 ∧
     (editorDelChar (editorInsertNewline
        { cx := 2, cy := 0, rows := [mkRow ['a', 'b', 'c']], dirty := false,
          statusmsg := "" })).rows.map rowContent
        = [mkRow ['a', 'b', 'c']].map rowContent ∧
     (editorDelChar (editorInsertNewline
        { cx := 2, cy := 0, rows := [mkRow ['a', 'b', 'c']], dirty := false,
          statusmsg := "" })).cx = 2 ∧
     (editorDelChar (editorInsertNewline
        { cx := 2, cy := 0, rows := [mkRow ['a', 'b', 'c']], dirty := false,
          statusmsg := "" })).cy = 0) :=
  newline_backspace_roundtrip
    { cx := 2, cy := 0, rows := [mkRow ['a', 'b', 'c']], dirty := false, statusmsg := "" }
    (by decide) (by decide) (by decide)

/-! ## Save/load round trip -/

theorem takeWhile_eq_self_of_all {α : Type} (p : α → Bool) (l : List α)
    (h : ∀ c ∈ l, p c = true) : l.takeWhile p = l := by
  induction l with
  | nil => rfl
  | cons c t ih =>
    rw [List.takeWhile_cons, if_pos (h c (by simp))]
    rw [ih (fun x hx => h x (by simp [hx]))]

theorem takeWhile_append_stop {α : Type} (p : α → Bool) (r : List α) (x : α) (s : List α)
    (h : ∀ c ∈ r, p c = true) (hx : p x = false) :
    (r ++ x :: s).takeWhile p = r := by
  induction r with
  | nil =>
    rw [List.nil_append, List.takeWhile_cons, hx]
    rfl
  | cons c t ih =>
    rw [List.cons_append, List.takeWhile_cons, if_pos (h c (by simp))]
    rw [ih (fun y hy => h y (by simp [hy]))]

theorem dropWhile_eq_self_of_head {α : Type} (p : α → Bool) (l : List α)
    (h : ∀ hd ∈ l.head?, p hd = false) : l.dropWhile p = l := by
  cases l with
  | nil => rfl
  | cons c t =>
    rw [List.dropWhile_cons, if_neg (by simp [h c (by simp)])]

theorem dropWhile_append_all {α : Type} (p : α → Bool) (t l : List α)
    (h : ∀ c ∈ t, p c = true) : (t ++ l).dropWhile p = l.dropWhile p := by
  induction t with
  | nil => rfl
  | cons c u ih =>
    rw [List.cons_append, List.dropWhile_cons, if_pos (by simp [h c (by simp)])]
    exact ih (fun y hy => h y (by simp [hy]))

/-- Stripping the trailing line ending of a good row plus any run of
`\n`/`\r` bytes restores the row. -/
theorem stripTrailingNl_good (r : List Char) (tailNl : List Char)
    (hno : ∀ c ∈ r, c ≠ '\n') (hlast : r.getLast? ≠ some '\r')
    (htail : ∀ c ∈ tailNl, c = '\n' ∨ c = '\r') :
    stripTrailingNl (r ++ tailNl) = r := by
  unfold stripTrailingNl
  rw [List.reverse_append]
  rw [dropWhile_append_all _ _ _ (by
    intro c hc
    rcases htail c (by simpa using hc) with h | h <;> simp [h])]
  rw [dropWhile_eq_self_of_head _ _ (by
    intro hd hhd
    rw [List.head?_reverse] at hhd
    have hmem : hd ∈ r := List.mem_of_mem_getLast? hhd
    have h1 : hd ≠ '\n' := hno hd hmem
    have h2 : hd ≠ '\r' := by
      intro hcontra
      rw [hcontra] at hhd
      exact hlast hhd
    simp [h1, h2])]
  rw [List.reverse_reverse]

/-- One unfolding of the `fgets` loop on a non-empty stream. -/
theorem editorOpenGo_succ (fuel : Nat) (stream : List Char) (h : ¬stream = []) :
    editorOpenGo (fuel + 1) stream =
      stripTrailingNl ((fgetsTake stream).take (strlenList (fgetsTake stream))) ::
      editorOpenGo fuel
        (if strlenList (fgetsTake stream) = MAX_LINE_LENGTH - 1 ∧
            (fgetsTake stream).getD (MAX_LINE_LENGTH - 2) nulChar ≠ '\n' then
          dropRestOfLine (stream.drop (fgetsTake stream).length)
        else stream.drop (fgetsTake stream).length) := by
  simp only [editorOpenGo]
  rw [if_neg h]

theorem editorOpenGo_nil (fuel : Nat) : editorOpenGo fuel [] = [] := by
  cases fuel <;> rfl

theorem strlenList_eq_length (l : List Char) (h : ∀ c ∈ l, c ≠ nulChar) :
    strlenList l = l.length := by
  unfold strlenList
  rw [takeWhile_eq_self_of_all _ _ (by intro c hc; simpa using h c hc)]

/-- Reading one `\n`-terminated good row off the stream: the loop
appends exactly that row and continues after its newline. -/
theorem openGo_step_lf (r s : List Char) (fuel : Nat) (hg : goodRow r) :
    editorOpenGo (fuel + 1) (r ++ '\n' :: s) = r :: editorOpenGo fuel s := by
  obtain ⟨hboth, hlast, hlen⟩ := hg
  have hno : ∀ c ∈ r, c ≠ '\n' := fun c hc => (hboth c hc).1
  have hnon : ∀ c ∈ r, c ≠ nulChar := fun c hc => (hboth c hc).2
  simp only [MAX_LINE_LENGTH] at hlen
  have hne : ¬(r ++ '\n' :: s = []) := by simp
  have hpre : (r ++ '\n' :: s).takeWhile (fun c => c != '\n') = r :=
    takeWhile_append_stop _ r '\n' s (by intro c hc; simpa using hno c hc) (by simp)
  rw [editorOpenGo_succ _ _ hne]
  by_cases hr999 : r.length ≤ 998
  · have hline : fgetsTake (r ++ '\n' :: s) = r ++ ['\n'] := by
      simp only [fgetsTake, hpre]
      rw [if_neg (by simp only [MAX_LINE_LENGTH]; omega)]
      rw [List.drop_left]
      rfl
    have hlinelen : strlenList (r ++ ['\n']) = r.length + 1 := by
      rw [strlenList_eq_length _ (by
        intro c hc
        rcases List.mem_append.mp hc with h1 | h1
        · exact hnon c h1
        · simp at h1
          rw [h1]
          decide)]
      simp
    have hcond : ¬(strlenList (r ++ ['\n']) = MAX_LINE_LENGTH - 1 ∧
        (r ++ ['\n']).getD (MAX_LINE_LENGTH - 2) nulChar ≠ '\n') := by
      rw [hlinelen]
      simp only [MAX_LINE_LENGTH]
      intro hc
      obtain ⟨h1, h2⟩ := hc
      have h3 : r.length = 998 := by omega
      rw [show (1000 - 2 : Nat) = r.length by omega] at h2
      rw [show ((r ++ ['\n']).getD r.length nulChar) = '\n' from
        getD_append_length r '\n' nulChar []] at h2
      exact h2 rfl
    have hrest : (r ++ '\n' :: s).drop (r ++ ['\n']).length = s := by
      have hl1 : (r ++ ['\n']).length = r.length + 1 := by simp
      rw [hl1, show r ++ '\n' :: s = (r ++ ['\n']) ++ s by simp, ← hl1, List.drop_left]
    rw [hline, if_neg hcond, hrest]
    congr 1
    rw [hlinelen, List.take_of_length_le (by simp)]
    exact stripTrailingNl_good r ['\n'] hno hlast (by simp)
  · have h999 : r.length = 999 := by omega
    have hline : fgetsTake (r ++ '\n' :: s) = r := by
      simp only [fgetsTake, hpre]
      rw [if_pos (by simp only [MAX_LINE_LENGTH]; omega)]
      rw [show (MAX_LINE_LENGTH - 1 : Nat) = r.length by simp only [MAX_LINE_LENGTH]; omega,
        List.take_left]
    have hlinelen : strlenList r = 999 := by
      rw [strlenList_eq_length _ hnon, h999]
    have hcond : strlenList r = MAX_LINE_LENGTH - 1 ∧
        r.getD (MAX_LINE_LENGTH - 2) nulChar ≠ '\n' := by
      refine ⟨by rw [hlinelen]; decide, ?_⟩
      have hin : (998 : Nat) < r.length := by omega
      rw [show (MAX_LINE_LENGTH - 2 : Nat) = 998 from rfl, List.getD_eq_getElem r nulChar hin]
      exact hno _ (List.getElem_mem hin)
    have hrest : (r ++ '\n' :: s).drop r.length = '\n' :: s := List.drop_left r _
    rw [hline, if_pos hcond, hrest]
    have hdropline : dropRestOfLine ('\n' :: s) = s := by
      unfold dropRestOfLine
      rw [List.takeWhile_cons]
      simp
    rw [hdropline]
    congr 1
    rw [hlinelen, ← h999, List.take_of_length_le (le_refl _)]
    simpa using stripTrailingNl_good r [] hno hlast (by simp)

/-- Reading one `\r\n`-terminated good row off the stream: the loop
appends exactly that row (stripping the `\r\n`) and continues after the
line ending — through the over-long-line discard path when the row plus
`\r` fills the `fgets` buffer. -/
theorem openGo_step_crlf (r s : List Char) (fuel : Nat) (hg : goodRow r) :
    editorOpenGo (fuel + 1) (r ++ '\r' :: '\n' :: s) = r :: editorOpenGo fuel s := by
  obtain ⟨hboth, hlast, hlen⟩ := hg
  have hno : ∀ c ∈ r, c ≠ '\n' := fun c hc => (hboth c hc).1
  have hnon : ∀ c ∈ r, c ≠ nulChar := fun c hc => (hboth c hc).2
  simp only [MAX_LINE_LENGTH] at hlen
  have hne : ¬(r ++ '\r' :: '\n' :: s = []) := by simp
  have hassoc : r ++ '\r' :: '\n' :: s = (r ++ ['\r']) ++ '\n' :: s := by simp
  have hprelen : (r ++ ['\r']).length = r.length + 1 := by simp
  have hpre : (r ++ '\r' :: '\n' :: s).takeWhile (fun c => c != '\n') = r ++ ['\r'] := by
    rw [hassoc]
    refine takeWhile_append_stop _ _ '\n' s ?_ (by simp)
    intro c hc
    rcases List.mem_append.mp hc with h1 | h1
    · simpa using hno c h1
    · simp at h1
      rw [h1]
      decide
  have hprenon : ∀ c ∈ r ++ ['\r'], c ≠ nulChar := by
    intro c hc
    rcases List.mem_append.mp hc with h1 | h1
    · exact hnon c h1
    · simp at h1
      rw [h1]
      decide
  rw [editorOpenGo_succ _ _ hne]
  by_cases hc997 : r.length ≤ 997
  · -- row, `\r` and `\n` all fit in the fgets buffer
    have hline : fgetsTake (r ++ '\r' :: '\n' :: s) = (r ++ ['\r']) ++ ['\n'] := by
      simp only [fgetsTake, hpre]
      rw [if_neg (by simp only [MAX_LINE_LENGTH, hprelen]; omega)]
      rw [hprelen, show r.length + 1 = (r ++ ['\r']).length by simp, hassoc, List.drop_left]
      rfl
    have hlinelen : strlenList ((r ++ ['\r']) ++ ['\n']) = r.length + 2 := by
      rw [strlenList_eq_length _ (by
        intro c hc
        rcases List.mem_append.mp hc with h1 | h1
        · exact hprenon c h1
        · simp at h1
          rw [h1]
          decide)]
      simp
    have hcond : ¬(strlenList ((r ++ ['\r']) ++ ['\n']) = MAX_LINE_LENGTH - 1 ∧
        ((r ++ ['\r']) ++ ['\n']).getD (MAX_LINE_LENGTH - 2) nulChar ≠ '\n') := by
      rw [hlinelen]
      simp only [MAX_LINE_LENGTH]
      intro hc
      obtain ⟨h1, h2⟩ := hc
      rw [show (1000 - 2 : Nat) = (r ++ ['\r']).length by simp; omega] at h2
      rw [getD_append_length (r ++ ['\r']) '\n' nulChar []] at h2
      exact h2 rfl
    have hrest : (r ++ '\r' :: '\n' :: s).drop ((r ++ ['\r']) ++ ['\n']).length = s := by
      rw [show r ++ '\r' :: '\n' :: s = ((r ++ ['\r']) ++ ['\n']) ++ s by simp,
        List.drop_left]
    rw [hline, if_neg hcond, hrest]
    congr 1
    rw [hlinelen, List.take_of_length_le (by simp)]
    rw [show (r ++ ['\r']) ++ ['\n'] = r ++ ['\r', '\n'] by simp]
    exact stripTrailingNl_good r ['\r', '\n'] hno hlast (by decide)
  · by_cases hc998 : r.length = 998
    · -- the `\r` fills the fgets buffer; the `\n` is discarded by the
      -- over-long-line path
      have hline : fgetsTake (r ++ '\r' :: '\n' :: s) = r ++ ['\r'] := by
        simp only [fgetsTake, hpre]
        rw [if_pos (by simp only [MAX_LINE_LENGTH, hprelen]; omega)]
        rw [show (MAX_LINE_LENGTH - 1 : Nat) = (r ++ ['\r']).length by
          simp only [MAX_LINE_LENGTH, hprelen]; omega]
        rw [hassoc, List.take_left]
      have hlinelen : strlenList (r ++ ['\r']) = 999 := by
        rw [strlenList_eq_length _ hprenon, hprelen, hc998]
      have hcond : strlenList (r ++ ['\r']) = MAX_LINE_LENGTH - 1 ∧
          (r ++ ['\r']).getD (MAX_LINE_LENGTH - 2) nulChar ≠ '\n' := by
        refine ⟨by rw [hlinelen]; decide, ?_⟩
        rw [show (MAX_LINE_LENGTH - 2 : Nat) = r.length by
          simp only [MAX_LINE_LENGTH]; omega]
        rw [getD_append_length r '\r' nulChar []]
        decide
      have hrest : (r ++ '\r' :: '\n' :: s).drop (r ++ ['\r']).length = '\n' :: s := by
        rw [hassoc, List.drop_left]
      rw [hline, if_pos hcond, hrest]
      have hdropline : dropRestOfLine ('\n' :: s) = s := by
        unfold dropRestOfLine
        rw [List.takeWhile_cons]
        simp
      rw [hdropline]
      congr 1
      rw [hlinelen, List.take_of_length_le (by simp only [hprelen]; omega)]
      exact stripTrailingNl_good r ['\r'] hno hlast (by simp)
    · -- a 999-byte row: fgets returns it whole and the `\r\n` is
      -- discarded by the over-long-line path
      have h999 : r.length = 999 := by omega
      have hline : fgetsTake (r ++ '\r' :: '\n' :: s) = r := by
        simp only [fgetsTake, hpre]
        rw [if_pos (by simp only [MAX_LINE_LENGTH, hprelen]; omega)]
        rw [show (MAX_LINE_LENGTH - 1 : Nat) = r.length by
          simp only [MAX_LINE_LENGTH]; omega]
        rw [List.take_left]
      have hlinelen : strlenList r = 999 := by
        rw [strlenList_eq_length _ hnon, h999]
      have hcond : strlenList r = MAX_LINE_LENGTH - 1 ∧
          r.getD (MAX_LINE_LENGTH - 2) nulChar ≠ '\n' := by
        refine ⟨by rw [hlinelen]; decide, ?_⟩
        have hin : (998 : Nat) < r.length := by omega
        rw [show (MAX_LINE_LENGTH - 2 : Nat) = 998 from rfl,
          List.getD_eq_getElem r nulChar hin]
        exact hno _ (List.getElem_mem hin)
      have hrest : (r ++ '\r' :: '\n' :: s).drop r.length = '\r' :: '\n' :: s :=
        List.drop_left r _
      rw [hline, if_pos hcond, hrest]
      have hdropline : dropRestOfLine ('\r' :: '\n' :: s) = s := by
        unfold dropRestOfLine
        rw [List.takeWhile_cons, if_pos (by decide), List.takeWhile_cons]
        simp
      rw [hdropline]
      congr 1
      rw [hlinelen, ← h999, List.take_of_length_le (le_refl _)]
      simpa using stripTrailingNl_good r [] hno hlast (by simp)

theorem crlfOf_append (a b : List Char) : crlfOf (a ++ b) = crlfOf a ++ crlfOf b := by
  simp [crlfOf]

theorem crlfOf_no_nl (r : List Char) (h : ∀ c ∈ r, c ≠ '\n') : crlfOf r = r := by
  induction r with
  | nil => rfl
  | cons c t ih =>
    have hc : ¬(c = '\n') := h c (by simp)
    have ht : crlfOf t = t := ih (fun x hx => h x (by simp [hx]))
    simp only [crlfOf] at ht ⊢
    rw [List.flatMap_cons, if_neg hc, ht]
    rfl

theorem openGo_serialize (rowsC : List (List Char)) (h : ∀ r ∈ rowsC, goodRow r) :
    ∀ fuel, ((rowsC.map (fun r => r ++ ['\n'])).flatten).length < fuel →
      editorOpenGo fuel ((rowsC.map (fun r => r ++ ['\n'])).flatten) = rowsC := by
  induction rowsC with
  | nil =>
    intro fuel _
    simp [editorOpenGo_nil]
  | cons r rest ih =>
    intro fuel hfuel
    rw [List.map_cons, List.flatten_cons] at hfuel ⊢
    have hS : (r ++ ['\n']) ++ ((rest.map (fun x => x ++ ['\n'])).flatten)
        = r ++ '\n' :: ((rest.map (fun x => x ++ ['\n'])).flatten) := by simp
    obtain ⟨f, rfl⟩ : ∃ f, fuel = f + 1 := ⟨fuel - 1, by omega⟩
    rw [hS, openGo_step_lf r _ f (h r (by simp))]
    congr 1
    refine ih (fun x hx => h x (by simp [hx])) f ?_
    simp only [List.length_append, List.length_cons, List.length_nil] at hfuel
    omega

theorem openGo_serialize_crlf (rowsC : List (List Char)) (h : ∀ r ∈ rowsC, goodRow r) :
    ∀ fuel, (crlfOf ((rowsC.map (fun r => r ++ ['\n'])).flatten)).length < fuel →
      editorOpenGo fuel (crlfOf ((rowsC.map (fun r => r ++ ['\n'])).flatten)) = rowsC := by
  induction rowsC with
  | nil =>
    intro fuel _
    simp [editorOpenGo_nil, crlfOf]
  | cons r rest ih =>
    intro fuel hfuel
    rw [List.map_cons, List.flatten_cons] at hfuel ⊢
    have hcr : crlfOf ((r ++ ['\n']) ++ ((rest.map (fun x => x ++ ['\n'])).flatten))
        = r ++ '\r' :: '\n' :: crlfOf ((rest.map (fun x => x ++ ['\n'])).flatten) := by
      rw [crlfOf_append, crlfOf_append,
        crlfOf_no_nl r (fun c hc => ((h r (by simp)).1 c hc).1)]
      simp [crlfOf]
    rw [hcr] at hfuel ⊢
    obtain ⟨f, rfl⟩ : ∃ f, fuel = f + 1 := ⟨fuel - 1, by omega⟩
    rw [openGo_step_crlf r _ f (h r (by simp))]
    congr 1
    refine ih (fun x hx => h x (by simp [hx])) f ?_
    simp only [List.length_append, List.length_cons] at hfuel
    omega

/-- C8 counterexample: the single-row document `"a\r"` contains no
newline byte and is far below the length limit, yet saving and loading
strips the trailing carriage return: the loaded document is `["a"]`. -/
theorem save_load_not_roundtrip_cr :
    (∀ c ∈ rowContent (mkRow ['a', '\r']), c ≠ '\n') ∧
    (rowContent (mkRow ['a', '\r'])).length < MAX_LINE_LENGTH ∧
    editorOpenRows (editorRowsToString
      { cx := 0, cy := 0, rows := [mkRow ['a', '\r']], dirty := false, statusmsg := "" })
      ≠ [rowContent (mkRow ['a', '\r'])] := by
  decide

/-- C8 as amended: for every document whose row contents contain no
newline and no NUL byte, do not end in a carriage return, and are
shorter than `MAX_LINE_LENGTH`, serializing with `editorRowsToString`
and loading the bytes with `editorOpen`'s line loop reproduces the row
contents byte-for-byte — and likewise when the `\n` endings are replaced
by `\r\n`. -/
theorem save_load_roundtrip (st : EditorConfig)
    (h : ∀ r ∈ st.rows, goodRow (rowContent r)) :
    editorOpenRows (editorRowsToString st) = st.rows.map rowContent ∧
    editorOpenRows (crlfOf (editorRowsToString st)) = st.rows.map rowContent := by
  have hser : editorRowsToString st
      = (((st.rows.map rowContent).map (fun r => r ++ ['\n']))).flatten := by
    unfold editorRowsToString
    rw [List.map_map]
    rfl
  have hgood : ∀ r ∈ st.rows.map rowContent, goodRow r := by
    intro r hr
    obtain ⟨x, hx, rfl⟩ := List.mem_map.mp hr
    exact h x hx
  unfold editorOpenRows
  constructor
  · rw [hser]
    exact openGo_serialize _ hgood _ (Nat.lt_succ_self _)
  · rw [hser]
    exact openGo_serialize_crlf _ hgood _ (Nat.lt_succ_self _)

/-- Witness for C8 (amended) on the two-row document `["ab", ""]`. -/
theorem save_load_roundtrip_witness :
    editorOpenRows (editorRowsToString
        { cx := 0, cy := 0, rows := [mkRow ['a', 'b'], mkRow []], dirty := false,
          statusmsg := "" })
      = [mkRow ['a', 'b'], mkRow []].map rowContent ∧
    editorOpenRows (crlfOf (editorRowsToString
        { cx := 0, cy := 0, rows := [mkRow ['a', 'b'], mkRow []], dirty := false,
          statusmsg := "" }))
      = [mkRow ['a', 'b'], mkRow []].map rowContent :=
  save_load_roundtrip
    { cx := 0, cy := 0, rows := [mkRow ['a', 'b'], mkRow []], dirty := false,
      statusmsg := "" }
    (by decide)

/-! ## End-of-line reset of the inline formatting states -/

/-- C9 counterexample: the list-item row `"- *ab"` is scanned with the
inline toggles and reaches the end of the line with the italic state
open, yet its rendering ends with the italic-on escape and the text —
no closing reset is emitted (the trailing escape sequence the claim
requires is absent). -/
theorem list_item_no_eol_reset :
    isListItem (rowContent (mkRow "- *ab".toList)) = true ∧
    renderMarkdown (mkRow "- *ab".toList) 40 3000
      = escBoldOn ++ ['-'] ++ escReset ++ escItalicOn ++ "ab".toList ∧
    (renderMarkdown (mkRow "- *ab".toList) 40 3000).drop
      ((renderMarkdown (mkRow "- *ab".toList) 40 3000).length - 4) ≠ escReset := by
  decide

/-- C9 as amended: a formatting state still open at the end of the line
is closed by an emitted reset only in the normal-text branch (when room
remains); rows classified as list items take `renderListBranch`, whose
output is the inline scan's bytes with no trailing reset appended. -/
theorem eol_reset_policy (row : EditorRow) (width bufsize : Nat)
    (hh : isHeaderLine (rowContent row) = 0)
    (hhr : isHorizontalRule (rowContent row) = false)
    (hcb : isCodeBlock (rowContent row) = false) :
    (isListItem (rowContent row) = false →
      ((mdInline bufsize (rowContent row)
          { out := [], pos := 0, inBold := false, inItalic := false,
            inCode := false }).inBold
        || (mdInline bufsize (rowContent row)
          { out := [], pos := 0, inBold := false, inItalic := false,
            inCode := false }).inItalic
        || (mdInline bufsize (rowContent row)
          { out := [], pos := 0, inBold := false, inItalic := false,
            inCode := false }).inCode) = true →
      (mdInline bufsize (rowContent row)
          { out := [], pos := 0, inBold := false, inItalic := false,
            inCode := false }).pos < bufsize - 5 →
      renderMarkdown row width bufsize
        = (mdInline bufsize (rowContent row)
            { out := [], pos := 0, inBold := false, inItalic := false,
              inCode := false }).out ++ escReset) ∧
    (isListItem (rowContent row) = true →
      renderMarkdown row width bufsize = renderListBranch (rowContent row) bufsize) := by
  constructor
  · intro hli hopen hpos
    unfold renderMarkdown
    rw [if_neg (by simp [hh]), if_neg (by simp [hli]), if_neg (by simp [hhr]),
      if_neg (by simp [hcb])]
    unfold renderNormalBranch
    rw [if_pos ⟨hopen, hpos⟩]
    unfold snprintfApp
    rw [if_pos (by omega)]
    dsimp only
    congr 1
    have hlen4 : escReset.length = 4 := rfl
    exact List.take_of_length_le (by rw [hlen4]; omega)
  · intro hli
    unfold renderMarkdown
    rw [if_neg (by simp [hh]), if_pos hli]

/-- Witness for C9 (amended): the spec's own scenario row
`"*bold text"` (normal text, odd `*` count) ends its rendering with the
reset, and the list-item dispatch on `"- x"`. -/
theorem eol_reset_policy_witness :
    (renderMarkdown (mkRow "*bold text".toList) 40 3000
      = (mdInline 3000 (rowContent (mkRow "*bold text".toList))
          { out := [], pos := 0, inBold := false, inItalic := false,
            inCode := false }).out ++ escReset) ∧
    renderMarkdown (mkRow "- x".toList) 40 3000
      = renderListBranch (rowContent (mkRow "- x".toList)) 3000 :=
  ⟨(eol_reset_policy (mkRow "*bold text".toList) 40 3000 (by decide) (by decide)
      (by decide)).1 (by decide) (by decide) (by decide),
   (eol_reset_policy (mkRow "- x".toList) 40 3000 (by decide) (by decide)
      (by decide)).2 (by decide)⟩

end Termineditor
